import Mathlib

/-!
Verification of the `mirea_config` in-memory VFS engine (`src/practice_1/vfs.py`
and `src/practice_1/shell_app.py`) against its specification.

The Python code is shallowly embedded: the node classes become an inductive
type, Python `dict` children become insertion-ordered association lists with
unique keys (matching `dict` semantics: setting an existing key updates in
place, a new key appends, `del` removes), byte strings become `List Nat`, and
in-place mutation of a parent node found by `resolve_parent` becomes a
functional update along the parent's normalized segment list (sound because
every loaded tree is a tree of freshly-allocated objects: a node is reachable
from the root by exactly the segment list that `resolve_parent` walks).
-/

namespace MireaVFS

/-- Embedding of `VFSNode`/`VFSDirectory`/`VFSFile` from `vfs.py`:
a directory holds a name and a name-keyed children mapping, a file holds a
name and raw bytes. -/
inductive VFSNode where
  | dir (name : String) (children : List (String × VFSNode))
  | file (name : String) (data : List Nat)

/-- `node.name` (the `VFSNode.name` attribute). -/
def VFSNode.name : VFSNode → String
  | .dir n _ => n
  | .file n _ => n

/-- `isinstance(node, VFSDirectory)`. -/
def VFSNode.isDir : VFSNode → Bool
  | .dir _ _ => true
  | .file _ _ => false

/-- `self.children.get(name)` on a Python dict modelled as an assoc list. -/
def dictGet (cs : List (String × VFSNode)) (k : String) : Option VFSNode :=
  (cs.find? (fun p => p.1 == k)).map (fun p => p.2)

/-- `name in self.children` membership test on the dict. -/
def dictHas (cs : List (String × VFSNode)) (k : String) : Bool :=
  cs.any (fun p => p.1 == k)

/-- `self.children[k] = v` (`VFSDirectory.add_child` stores `node` under
`node.name`): updating an existing key keeps its position, a new key is
appended, exactly as a Python dict does. -/
def dictSet (cs : List (String × VFSNode)) (k : String) (v : VFSNode) :
    List (String × VFSNode) :=
  if dictHas cs k then cs.map (fun p => if p.1 == k then (k, v) else p)
  else cs ++ [(k, v)]

/-- `del self.children[k]`. -/
def dictDel (cs : List (String × VFSNode)) (k : String) : List (String × VFSNode) :=
  cs.filter (fun p => p.1 != k)

/-- `VFSDirectory.remove_child`: returns whether the name was present,
and the children mapping afterwards. -/
def remove_child (cs : List (String × VFSNode)) (k : String) :
    Bool × List (String × VFSNode) :=
  if dictHas cs k then (true, dictDel cs k) else (false, cs)

/-- Splitting a list of characters at every occurrence of a separator
character (used to embed `path.split('/')` computably). -/
def splitOnChar (sep : Char) : List Char → List (List Char)
  | [] => [[]]
  | c :: rest =>
    let groups := splitOnChar sep rest
    if c == sep then [] :: groups
    else
      match groups with
      | [] => [[c]]
      | g :: gs => (c :: g) :: gs

/-- `split_path` from `vfs.py`: split a Unix-style path on `/`, dropping
empty components and `.` components. -/
def split_path (path : String) : List String :=
  ((splitOnChar '/' path.data).map (fun cs => String.mk cs)).filter
    (fun p => p != "" && p != ".")

/-- `path.startswith('/')`. -/
def startsSlash (path : String) : Bool :=
  match path.data with
  | [] => false
  | c :: _ => c == '/'

/-- The combined component sequence of `resolve_path`/`resolve_parent`:
the split segments for an absolute path, the current location's segments
followed by the split segments otherwise. -/
def combineComps (cwd : List String) (path : String) : List String :=
  if startsSlash path then split_path path else cwd ++ split_path path

/-- The explicit-stack normalization loop shared by `resolve_path`,
`resolve_parent` and `vfs_change_dir`: `..` pops the stack when it is
non-empty (and is a no-op on an empty stack), `.` is skipped, every other
segment is pushed. -/
def normStackAux : List String → List String → List String
  | stack, [] => stack
  | stack, c :: rest =>
    if c == ".." then normStackAux stack.dropLast rest
    else if c == "." then normStackAux stack rest
    else normStackAux (stack ++ [c]) rest

/-- The full normalization pass starting from the empty stack. -/
def normStack (comps : List String) : List String :=
  normStackAux [] comps

/-- The re-walk loop of `resolve_path`: starting from a node, look each
segment up as a child, failing when the current node is not a directory or
the child is absent. -/
def walkFrom : VFSNode → List String → Option VFSNode
  | node, [] => some node
  | node, c :: rest =>
    match node with
    | .dir _ cs =>
      match dictGet cs c with
      | some child => walkFrom child rest
      | none => none
    | .file _ _ => none

/-- `resolve_path` from `vfs.py`: combine, normalize with the stack, then
re-walk from the root through the final stack. -/
def resolve_path (root : VFSNode) (cwd : List String) (path : String) :
    Option VFSNode :=
  walkFrom root (normStack (combineComps cwd path))

/-- `resolve_parent` from `vfs.py`: reject the literal root path `/`,
normalize only the components preceding the final one, walk that prefix from
the root, and pair the reached directory with the final component's name.
The empty component list returns `(root, '')` exactly as the Python does. -/
def resolve_parent (root : VFSNode) (cwd : List String) (path : String) :
    Option (VFSNode × String) :=
  if path == "/" then none
  else
    let comps := combineComps cwd path
    if comps.isEmpty then some (root, "")
    else
      match walkFrom root (normStack comps.dropLast) with
      | some (VFSNode.dir n cs) => some (VFSNode.dir n cs, comps.getLastD "")
      | _ => none

/-- Path-tracking variant of `resolve_parent`: returns the normalized
segment list leading to the parent directory instead of the directory node
itself, so that in-place mutation of the parent can be expressed as a
functional update of the tree at that segment list. -/
def resolve_parent_segs (root : VFSNode) (cwd : List String) (path : String) :
    Option (List String × String) :=
  if path == "/" then none
  else
    let comps := combineComps cwd path
    if comps.isEmpty then some ([], "")
    else
      let psegs := normStack comps.dropLast
      match walkFrom root psegs with
      | some (VFSNode.dir _ _) => some (psegs, comps.getLastD "")
      | _ => none

/-- Rewriting the children mapping of the directory reached by a segment
list (the functional counterpart of mutating that directory in place);
out-of-tree segment lists leave the tree unchanged. -/
def updateAt : List String → (List (String × VFSNode) → List (String × VFSNode)) →
    VFSNode → VFSNode
  | [], f, .dir n cs => .dir n (f cs)
  | [], _, .file n d => .file n d
  | c :: rest, f, .dir n cs =>
    .dir n (cs.map (fun p => if p.1 == c then (p.1, updateAt rest f p.2) else p))
  | _ :: _, _, .file n d => .file n d

/-- The VFS-relevant state of `ShellEmulator`: the (possibly absent) loaded
tree and the current working location as a segment sequence. -/
structure ShellState where
  vfs_root : Option VFSNode
  cwd : List String

/-- `'/' + '/'.join(self.cwd) if self.cwd else '/'`. -/
def curPathString (cwd : List String) : String :=
  match cwd with
  | [] => "/"
  | _ => "/" ++ String.intercalate "/" cwd

/-- `ShellEmulator.cmd_rmdir`: remove an empty directory. Resolution failures,
non-directories, non-empty directories, an unresolvable parent, and a parent
that does not actually hold the leaf name each produce one error line and
leave the state unchanged; on success the leaf is detached from the parent
directory found by `resolve_parent`. -/
def cmd_rmdir (s : ShellState) (args : List String) : ShellState × List String :=
  match args with
  | [] => (s, ["rmdir: требуется путь к директории"])
  | path :: _ =>
    match s.vfs_root with
    | none => (s, ["VFS не загружен."])
    | some root =>
      match resolve_path root s.cwd path with
      | none => (s, [("rmdir: путь не найден: " ++ path)])
      | some (VFSNode.file _ _) => (s, [("rmdir: " ++ path ++ ": не является директорией")])
      | some (VFSNode.dir _ cs) =>
        if !cs.isEmpty then (s, [("rmdir: " ++ path ++ ": директория не пуста")])
        else
          match resolve_parent_segs root s.cwd path with
          | none => (s, [("rmdir: не удалось найти родителя для " ++ path)])
          | some (psegs, name) =>
            match walkFrom root psegs with
            | some (VFSNode.dir _ pcs) =>
              if (remove_child pcs name).1 then
                (⟨some (updateAt psegs (fun l => dictDel l name) root), s.cwd⟩,
                 [("rmdir: удалено " ++ path)])
              else (s, [("rmdir: не удалось удалить " ++ path)])
            | _ => (s, [("rmdir: не удалось удалить " ++ path)])

/-- `ShellEmulator.cmd_cp`: copy a file. The destination parent is the
resolved directory itself when `dst` names a directory, and otherwise the
`resolve_parent` result; an existing directory under the destination name is
rejected; on success a fresh file node with a copy of the source bytes is
stored under the destination name. -/
def cmd_cp (s : ShellState) (args : List String) : ShellState × List String :=
  match args with
  | src :: dst :: _ =>
    (match s.vfs_root with
     | none => (s, ["VFS не загружен."])
     | some root =>
       match resolve_path root s.cwd src with
       | none => (s, [("cp: источник не найден: " ++ src)])
       | some (VFSNode.dir _ _) =>
         (s, [("cp: копирование директорий не поддерживается: " ++ src)])
       | some (VFSNode.file srcName srcData) =>
         -- destination parent as a normalized segment list, plus leaf name
         let destInfo : Option (List String × String) :=
           match resolve_path root s.cwd dst with
           | some (VFSNode.dir _ _) =>
             some (normStack (combineComps s.cwd dst), srcName)
           | some (VFSNode.file _ _) => resolve_parent_segs root s.cwd dst
           | none => resolve_parent_segs root s.cwd dst
         match resolve_path root s.cwd dst, destInfo with
         | some (VFSNode.file _ _), none =>
           (s, [("cp: не удалось найти родителя для " ++ dst)])
         | none, none => (s, [("cp: родительская директория для " ++ dst ++ " не найдена")])
         | some (VFSNode.dir _ _), none => (s, [("cp: целевая директория недоступна: " ++ dst)])
         | _, some (psegs, destName) =>
           match walkFrom root psegs with
           | some (VFSNode.dir _ pcs) =>
             match dictGet pcs destName with
             | some (VFSNode.dir _ _) =>
               (s, [("cp: не могу перезаписать директорию: " ++ dst)])
             | _ =>
               (⟨some (updateAt psegs
                   (fun l => dictSet l destName (VFSNode.file destName srcData)) root),
                 s.cwd⟩,
                [("cp: скопировано " ++ src ++ " -> " ++ dst)])
           | _ => (s, [("cp: целевая директория недоступна: " ++ dst)]))
  | _ => (s, ["cp: требуется источник и назначение"])

/-- `ShellEmulator.vfs_change_dir`: returns the updated state, the success
flag, and any output written while resolving (only the not-loaded message).
An absolute path stores `split_path path` unnormalized; a relative path
stores the stack-normalized concatenation. -/
def vfs_change_dir (s : ShellState) (path : String) :
    ShellState × Bool × List String :=
  match s.vfs_root with
  | none => (s, false, ["VFS не загружен."])
  | some root =>
    if path == "/" then (⟨s.vfs_root, []⟩, true, [])
    else
      match resolve_path root s.cwd path with
      | some (VFSNode.dir _ _) =>
        if startsSlash path then (⟨s.vfs_root, split_path path⟩, true, [])
        else (⟨s.vfs_root, normStack (s.cwd ++ split_path path)⟩, true, [])
      | _ => (s, false, [])

/-- `ShellEmulator.cmd_cd`. -/
def cmd_cd (s : ShellState) (args : List String) : ShellState × List String :=
  match args with
  | [] =>
    let r := vfs_change_dir s "/"
    (r.1, r.2.2 ++ [if r.2.1 then "Перешёл в /" else "cd: не удалось перейти в /"])
  | path :: _ =>
    let r := vfs_change_dir s path
    if r.2.1 then
      (r.1, r.2.2 ++ [("Тек. директория: " ++ curPathString r.1.cwd)])
    else
      (r.1, r.2.2 ++ [("cd: путь не найден или не является директорией: " ++ path)])

/-- UTF-8 continuation byte test (`80..BF`). -/
def isCont (b : Nat) : Bool := 0x80 <= b && b < 0xC0

mutual
/-- Strict UTF-8 decoding of a byte list into a list of Unicode code points,
as `bytes.decode('utf-8')` performs it: continuation bytes are `80..BF`,
overlong encodings, surrogates (`ED A0..BF ..`), truncated sequences and
code points above `10FFFF` are all rejected. -/
def utf8Decode : List Nat → Option (List Nat)
  | [] => some []
  | b :: rest =>
    if b < 0x80 then (utf8Decode rest).map (fun t => b :: t)
    else if b < 0xC2 then none
    else if b < 0xE0 then utf8DecodeTwo b rest
    else if b < 0xF0 then utf8DecodeThree b rest
    else if b < 0xF5 then utf8DecodeFour b rest
    else none

/-- Continuation of a two-byte sequence led by `b` (`C2..DF`). -/
def utf8DecodeTwo (b : Nat) : List Nat → Option (List Nat)
  | b1 :: r =>
    if isCont b1 then
      (utf8Decode r).map (fun t => ((b - 0xC0) * 64 + (b1 - 0x80)) :: t)
    else none
  | [] => none

/-- Continuation of a three-byte sequence led by `b` (`E0..EF`); the first
continuation range depends on `b` to exclude overlongs and surrogates. -/
def utf8DecodeThree (b : Nat) : List Nat → Option (List Nat)
  | b1 :: b2 :: r =>
    if ((if b == 0xE0 then 0xA0 else 0x80) <= b1
        && b1 <= (if b == 0xED then 0x9F else 0xBF)) && isCont b2 then
      (utf8Decode r).map
        (fun t => ((b - 0xE0) * 4096 + (b1 - 0x80) * 64 + (b2 - 0x80)) :: t)
    else none
  | _ => none

/-- Continuation of a four-byte sequence led by `b` (`F0..F4`); the first
continuation range depends on `b` to exclude overlongs and values past
`10FFFF`. -/
def utf8DecodeFour (b : Nat) : List Nat → Option (List Nat)
  | b1 :: b2 :: b3 :: r =>
    if ((if b == 0xF0 then 0x90 else 0x80) <= b1
        && b1 <= (if b == 0xF4 then 0x8F else 0xBF)) && isCont b2 && isCont b3 then
      (utf8Decode r).map
        (fun t => ((b - 0xF0) * 0x40000 + (b1 - 0x80) * 4096
          + (b2 - 0x80) * 64 + (b3 - 0x80)) :: t)
    else none
  | _ => none
end

/-- UTF-8 encoding of one Unicode code point (`str.encode('utf-8')`,
per character). -/
def utf8EncodeChar (c : Nat) : List Nat :=
  if c < 0x80 then [c]
  else if c < 0x800 then [0xC0 + c / 64, 0x80 + c % 64]
  else if c < 0x10000 then
    [0xE0 + c / 4096, 0x80 + (c / 64) % 64, 0x80 + c % 64]
  else
    [0xF0 + c / 0x40000, 0x80 + (c / 4096) % 64, 0x80 + (c / 64) % 64, 0x80 + c % 64]

/-- `s.encode('utf-8')` over a whole string. -/
def utf8Encode (s : String) : List Nat :=
  (s.data.map (fun ch => utf8EncodeChar ch.toNat)).flatten

/-- The standard base64 alphabet. -/
def b64Alphabet : List Char :=
  "ABCDEFGHIJKLMNOPQRSTUVWXYZabcdefghijklmnopqrstuvwxyz0123456789+/".data

/-- Character of a 6-bit group. -/
def b64Chr (i : Nat) : Char := b64Alphabet.getD i 'A'

/-- `base64.b64encode`: bytes to base64 text with `=` padding. -/
def b64encode : List Nat → List Char
  | a :: b :: c :: rest =>
    b64Chr (a / 4) :: b64Chr ((a % 4) * 16 + b / 16)
      :: b64Chr ((b % 16) * 4 + c / 64) :: b64Chr (c % 64) :: b64encode rest
  | [a, b] => [b64Chr (a / 4), b64Chr ((a % 4) * 16 + b / 16), b64Chr ((b % 16) * 4), '=']
  | [a] => [b64Chr (a / 4), b64Chr ((a % 4) * 16), '=', '=']
  | [] => []

/-- Python (Unicode) whitespace code points: the set stripped by
`str.strip()` and recognized by `str.isspace()`. -/
def pyIsSpace (c : Nat) : Bool :=
  (9 ≤ c && c ≤ 13) || (28 ≤ c && c ≤ 31) || c == 32 || c == 0x85 || c == 0xA0 ||
    c == 0x1680 || (0x2000 ≤ c && c ≤ 0x200A) || c == 0x2028 || c == 0x2029 ||
    c == 0x202F || c == 0x205F || c == 0x3000

/-- `text.strip()` on a code-point list. -/
def stripCps (cps : List Nat) : List Nat :=
  ((cps.dropWhile pyIsSpace).reverse.dropWhile pyIsSpace).reverse

/-- Line-boundary code points of `str.splitlines()`. -/
def isLineBoundary (c : Nat) : Bool :=
  c == 10 || c == 11 || c == 12 || c == 13 || c == 28 || c == 29 || c == 30 ||
    c == 0x85 || c == 0x2028 || c == 0x2029

/-- Worker for `str.splitlines()`: `acc` holds the current line reversed. -/
def splitlinesAux (acc : List Nat) : List Nat → List (List Nat)
  | [] => if acc.isEmpty then [] else [acc.reverse]
  | 13 :: 10 :: rest => acc.reverse :: splitlinesAux [] rest
  | c :: rest =>
    if isLineBoundary c then acc.reverse :: splitlinesAux [] rest
    else splitlinesAux (c :: acc) rest

/-- `text.splitlines()` on a code-point list: `\r\n` counts as a single
boundary, a trailing boundary produces no trailing empty line. -/
def pySplitlines (cps : List Nat) : List (List Nat) := splitlinesAux [] cps

/-- Code points back to a string (all code points produced by `utf8Decode`
are valid scalar values). -/
def cpsToString (cps : List Nat) : String :=
  String.mk (cps.map Char.ofNat)

/-- The three outcomes of the `cmd_cat` content inspection. -/
inductive CatResult where
  | emptyFile
  | binary (b64 : List Char)
  | text (lines : List (List Nat))

/-- The content-inspection policy of `ShellEmulator.cmd_cat`, as a function
of the file bytes. `isPrintable` stands for Python's Unicode-table-driven
`str.isprintable` on a single code point and is kept as a parameter. -/
def catRender (isPrintable : Nat → Bool) (data : List Nat) : CatResult :=
  if data.isEmpty then .emptyFile
  else
    match utf8Decode data with
    | none => .binary (b64encode data)
    | some text =>
      if (stripCps text).isEmpty then .binary (b64encode data)
      else
        let printable_count :=
          (text.filter (fun ch => isPrintable ch || ch == 10 || ch == 13 || ch == 9)).length
        if 10 * printable_count ≥ 6 * max 1 text.length then .text (pySplitlines text)
        else .binary (b64encode data)

/-- The output lines `cmd_cat` writes for each `CatResult`. -/
def catResultLines : CatResult → List String
  | .emptyFile => ["(empty file)"]
  | .binary b64 => ["(binary data, base64): " ++ String.mk b64]
  | .text lines => lines.map cpsToString

/-- `ShellEmulator.cmd_cat`. With no tree loaded, `vfs_resolve` writes the
not-loaded message and returns `None`, after which `cmd_cat` also writes its
own not-found message. -/
def cmd_cat (isPrintable : Nat → Bool) (s : ShellState) (args : List String) :
    ShellState × List String :=
  match args with
  | [] => (s, ["cat: требуется путь к файлу"])
  | p :: _ =>
    match s.vfs_root with
    | none => (s, ["VFS не загружен.", ("cat: файл не найден: " ++ p)])
    | some root =>
      match resolve_path root s.cwd p with
      | none => (s, [("cat: файл не найден: " ++ p)])
      | some (VFSNode.dir _ _) => (s, [("cat: " ++ p ++ ": это директория")])
      | some (VFSNode.file _ data) => (s, catResultLines (catRender isPrintable data))

/-- Insertion step for sorting children by name (`sorted(children.items())`;
names are unique, so the tuple comparison reduces to the name). -/
def lsInsert (p : String × VFSNode) : List (String × VFSNode) → List (String × VFSNode)
  | [] => [p]
  | q :: rest => if p.1 ≤ q.1 then p :: q :: rest else q :: lsInsert p rest

/-- `sorted(children.items())` by name. -/
def lsSort (cs : List (String × VFSNode)) : List (String × VFSNode) :=
  cs.foldr lsInsert []

/-- The single line `cmd_ls` writes for a resolved node. -/
def lsRender (node : VFSNode) : String :=
  match node with
  | .file n _ => n
  | .dir _ cs =>
    let names := (lsSort cs).map (fun p => p.1 ++ (if p.2.isDir then "/" else ""))
    if names.isEmpty then "(пустая директория)" else String.intercalate "  " names

/-- `ShellEmulator.cmd_ls`. For the default `.` target the not-loaded check
happens before resolution (one message); for an explicit target,
`vfs_resolve` writes the not-loaded message and returns `None`, after which
the not-found message is also written. -/
def cmd_ls (s : ShellState) (args : List String) : ShellState × List String :=
  let target := args.headD "."
  if target == "." then
    match s.vfs_root with
    | none => (s, ["VFS не загружен."])
    | some root =>
      match resolve_path root s.cwd (curPathString s.cwd) with
      | none => (s, [("ls: путь не найден: " ++ target)])
      | some node => (s, [lsRender node])
  else
    match s.vfs_root with
    | none => (s, ["VFS не загружен.", ("ls: путь не найден: " ++ target)])
    | some root =>
      match resolve_path root s.cwd target with
      | none => (s, [("ls: путь не найден: " ++ target)])
      | some node => (s, [lsRender node])

mutual
/-- The `walk` closure of `cmd_vfsinfo` on one node at a given depth:
(directories, files, maximum directory depth). -/
def walkCount : VFSNode → Nat → Nat × Nat × Nat
  | .dir _ cs, depth =>
    let r := walkCountList cs (depth + 1)
    (r.1 + 1, r.2.1, max depth r.2.2)
  | .file _ _, _ => (0, 1, 0)

/-- `walk` over a children list. -/
def walkCountList : List (String × VFSNode) → Nat → Nat × Nat × Nat
  | [], _ => (0, 0, 0)
  | (_, n) :: rest, depth =>
    let a := walkCount n depth
    let b := walkCountList rest depth
    (a.1 + b.1, a.2.1 + b.2.1, max a.2.2 b.2.2)
end

/-- `ShellEmulator.cmd_vfsinfo`; `vfsPathStr` stands for the textual
rendering of `self.vfs_path`. -/
def cmd_vfsinfo (vfsPathStr : String) (s : ShellState) (_args : List String) :
    ShellState × List String :=
  match s.vfs_root with
  | none => (s, ["VFS не загружен."])
  | some root =>
    let r := walkCount root 0
    (s, [("VFS загружен: " ++ vfsPathStr),
         ("Директории: " ++ toString r.1 ++ ", Файлы: " ++ toString r.2.1 ++ ", Максимальная глубина: " ++ toString r.2.2)])

/-- A parsed XML element as `xml.etree.ElementTree` hands it to
`load_vfs_from_xml`: tag, attributes, text payload (absent text is `None`),
child elements. -/
inductive XmlElem where
  | mk (tag : String) (attrs : List (String × String)) (text : Option String)
      (children : List XmlElem)

/-- `elem.tag`. -/
def XmlElem.tag : XmlElem → String
  | .mk t _ _ _ => t

/-- Attribute lookup in an attribute list. -/
def attrFind (attrs : List (String × String)) (k : String) : Option String :=
  (attrs.find? (fun p => p.1 == k)).map (fun p => p.2)

/-- `elem.get(key)`. -/
def XmlElem.attrGet : XmlElem → String → Option String
  | .mk _ attrs _ _, k => attrFind attrs k

/-- `elem.text or ''`. -/
def XmlElem.textOr : XmlElem → String
  | .mk _ _ t _ => t.getD ""

/-- The child elements of an element. -/
def XmlElem.children : XmlElem → List XmlElem
  | .mk _ _ _ cs => cs

/-- ASCII lowering of one character (tags and encoding names compared with
`.lower()` are ASCII). -/
def charLowerAscii (c : Char) : Char :=
  if 'A' ≤ c && c ≤ 'Z' then Char.ofNat (c.toNat + 32) else c

/-- `s.lower()` for ASCII strings. -/
def strToLower (s : String) : String :=
  String.mk (s.data.map charLowerAscii)

/-- Position of a character in the base64 alphabet. -/
def b64IndexAux (c : Char) : List Char → Nat → Option Nat
  | [], _ => none
  | a :: rest, i => if a == c then some i else b64IndexAux c rest (i + 1)

/-- Position of a character in the base64 alphabet, `none` outside it. -/
def b64Index (c : Char) : Option Nat := b64IndexAux c b64Alphabet 0

/-- The 6-bit value of an alphabet character. -/
def b64Val (c : Char) : Nat := (b64Index c).getD 0

/-- Quad-by-quad base64 decoding with terminal `=` padding; any other shape
is rejected, as `base64.b64decode` rejects payloads whose length after
filtering is not a multiple of four or whose padding is not terminal. -/
def decodeB64Groups : List Char → Option (List Nat)
  | [] => some []
  | c1 :: c2 :: c3 :: c4 :: rest =>
    if (b64Index c1).isSome && (b64Index c2).isSome then
      if c3 == '=' then
        if c4 == '=' && rest.isEmpty then some [b64Val c1 * 4 + b64Val c2 / 16]
        else none
      else if (b64Index c3).isSome then
        if c4 == '=' then
          if rest.isEmpty then
            some [b64Val c1 * 4 + b64Val c2 / 16, (b64Val c2 % 16) * 16 + b64Val c3 / 4]
          else none
        else if (b64Index c4).isSome then
          (decodeB64Groups rest).map (fun t =>
            (b64Val c1 * 4 + b64Val c2 / 16)
              :: ((b64Val c2 % 16) * 16 + b64Val c3 / 4)
              :: ((b64Val c3 % 4) * 64 + b64Val c4) :: t)
        else none
      else none
    else none
  | _ => none

/-- `base64.b64decode` on a text payload: characters outside the alphabet
and `=` are discarded first, then the quads are decoded. -/
def b64decodeStr (s : String) : Option (List Nat) :=
  decodeB64Groups (s.data.filter (fun c => (b64Index c).isSome || c == '='))

/-- The file-content decoding step of `load_vfs_from_xml.process_dir`.
`pyEncode` stands for Python's codec registry (`text.encode(codecName)`),
returning `none` both for an unknown codec name and for unencodable text —
the two failure modes the Python code folds into one error. An encoding
attribute equal to the empty string is falsy in Python, so it takes the
UTF-8 default branch. -/
def decodeFileContent (pyEncode : String → String → Option (List Nat))
    (enc : Option String) (name : String) (raw_text : String) :
    Except String (List Nat) :=
  match enc with
  | some e =>
    if e != "" && strToLower e == "base64" then
      match b64decodeStr raw_text with
      | some d => .ok d
      | none => .error ("Ошибка base64 в файле " ++ name)
    else if e != "" then
      match pyEncode e raw_text with
      | some d => .ok d
      | none => .error ("Неверная кодировка " ++ e ++ " для файла " ++ name)
    else .ok (utf8Encode raw_text)
  | none => .ok (utf8Encode raw_text)

/-- `load_vfs_from_xml.process_dir`: fold the element list into a children
mapping, recursing into `dir` elements, decoding `file` payloads, skipping
unknown tags, and aborting the whole load on the first error. -/
def process_elems (pyEncode : String → String → Option (List Nat)) :
    List XmlElem → List (String × VFSNode) → Except String (List (String × VFSNode))
  | [], acc => .ok acc
  | XmlElem.mk tg attrs tx cs :: rest, acc =>
    if strToLower tg == "dir" then
      match attrFind attrs "name" with
      | some nm =>
        if nm != "" then
          match process_elems pyEncode cs [] with
          | .ok childCs =>
            process_elems pyEncode rest (dictSet acc nm (.dir nm childCs))
          | .error msg => .error msg
        else .error "В VFS: тег dir без атрибута name"
      | none => .error "В VFS: тег dir без атрибута name"
    else if strToLower tg == "file" then
      match attrFind attrs "name" with
      | some nm =>
        if nm != "" then
          match decodeFileContent pyEncode (attrFind attrs "encoding") nm (tx.getD "") with
          | .ok data => process_elems pyEncode rest (dictSet acc nm (.file nm data))
          | .error msg => .error msg
        else .error "В VFS: тег file без атрибута name"
      | none => .error "В VFS: тег file без атрибута name"
    else process_elems pyEncode rest acc

/-- `load_vfs_from_xml` after XML parsing: require a `vfs` root element;
when a top-level `dir` named `/` exists its content becomes the root's
children, otherwise all top-level elements do. -/
def load_vfs_from_elem (pyEncode : String → String → Option (List Nat))
    (rootElem : XmlElem) : Except String VFSNode :=
  if strToLower rootElem.tag != "vfs" then
    .error "Неверный формат VFS: корневой элемент должен быть vfs"
  else
    let top_dirs := rootElem.children.filter
      (fun c => strToLower c.tag == "dir" && c.attrGet "name" == some "/")
    match top_dirs with
    | t :: _ => (process_elems pyEncode t.children []).map (fun cs => VFSNode.dir "/" cs)
    | [] => (process_elems pyEncode rootElem.children []).map (fun cs => VFSNode.dir "/" cs)

/-- `ln.rstrip('\n')`. -/
def rstripNl (s : String) : String :=
  String.mk (s.data.reverse.dropWhile (fun c => c == '\n')).reverse

/-- `ln.strip()`. -/
def pyStrip (s : String) : String :=
  String.mk
    (((s.data.dropWhile (fun c => pyIsSpace c.toNat)).reverse.dropWhile
      (fun c => pyIsSpace c.toNat)).reverse)

/-- Worker for `line.split()`: `acc` holds the current word reversed. -/
def splitWsAux : List Char → List Char → List String
  | [], acc => if acc.isEmpty then [] else [String.mk acc.reverse]
  | c :: rest, acc =>
    if pyIsSpace c.toNat then
      if acc.isEmpty then splitWsAux rest []
      else String.mk acc.reverse :: splitWsAux rest []
    else splitWsAux rest (c :: acc)

/-- `line.split()`: split on whitespace runs, producing no empty tokens. -/
def pySplitWs (s : String) : List String := splitWsAux s.data []

/-- `s.startswith('#')`. -/
def startsHash (s : String) : Bool :=
  match s.data with
  | c :: _ => c == '#'
  | [] => false

/-- The key set of `ShellEmulator.self.commands`. -/
def commandNames : List String :=
  ["ls", "cd", "cat", "vfsinfo", "uptime", "whoami", "rmdir", "cp", "exit"]

/-- `ShellEmulator.execute_line`, abstracted over what a handler invocation
does: `runH cmd args` returns the handler's output, or an error message when
the handler raises. Returns the dispatched `(cmd, args)` pairs (at most one)
and the written output; an exception from a handler is caught and reported,
an unknown command is reported and skipped. -/
def execute_line (runH : String → List String → Except String (List String))
    (userHost : String) (line : String) :
    List (String × List String) × List String :=
  let l := rstripNl line
  if l == "" then ([], [])
  else
    let echo := (userHost ++ ":~$ " ++ l)
    match pySplitWs l with
    | [] => ([], [echo])
    | cmd :: args =>
      if commandNames.contains cmd then
        match runH cmd args with
        | .ok out => ([(cmd, args)], echo :: out)
        | .error e =>
          ([(cmd, args)], [echo, ("Ошибка выполнения команды " ++ cmd ++ " в скрипте: " ++ e)])
      else ([], [echo, ("Неизвестная команда в скрипте: " ++ cmd ++ ". Пропускаю строку.")])

/-- The filtering loop of `ShellEmulator.run_startup_script`: drop lines that
strip to nothing or whose stripped form starts with `#`; surviving lines keep
their text with trailing newlines removed. -/
def scriptFilter : List String → List String
  | [] => []
  | ln :: rest =>
    if pyStrip ln == "" then scriptFilter rest
    else if startsHash (pyStrip ln) then scriptFilter rest
    else rstripNl ln :: scriptFilter rest

/-- `ShellEmulator.run_startup_script` after reading the file: filter, report
once when nothing remains, otherwise hand each surviving line to
`execute_line` strictly in order (the Python schedules line `i` at delay
`300·i` ms on the Tk event loop, which executes them in that order; the
pacing itself is not modelled). Returns the dispatched `(cmd, args)` pairs
and the full output. -/
def run_startup_script (runH : String → List String → Except String (List String))
    (userHost : String) (raw_lines : List String) :
    List (String × List String) × List String :=
  let lines := scriptFilter raw_lines
  if lines.isEmpty then ([], ["Стартовый скрипт пуст или содержит только комментарии."])
  else
    lines.foldr
      (fun l acc =>
        let r := execute_line runH userHost l
        (r.1 ++ acc.1, r.2 ++ acc.2)) ([], [])


/-! ## Helper lemmas and claim theorems -/

/-- Reflexive-transitive child relation: `Descendant n r` says `n` occurs in
the tree rooted at `r`. -/
inductive Descendant : VFSNode → VFSNode → Prop
  | refl (n : VFSNode) : Descendant n n
  | step (n c : VFSNode) (k nm : String) (cs : List (String × VFSNode)) :
      (k, c) ∈ cs → Descendant n c → Descendant n (VFSNode.dir nm cs)

lemma dictGet_mem {cs : List (String × VFSNode)} {k : String} {v : VFSNode}
    (h : dictGet cs k = some v) : (k, v) ∈ cs := by
  unfold dictGet at h
  rw [Option.map_eq_some'] at h
  obtain ⟨p, hf, hv⟩ := h
  have hk : p.1 = k := by
    have := List.find?_some hf
    simpa using this
  have hm := List.mem_of_find?_eq_some hf
  have : p = (k, v) := by
    cases p
    simp_all
  rwa [this] at hm

lemma walkFrom_descendant :
    ∀ (segs : List String) (node n : VFSNode),
      walkFrom node segs = some n → Descendant n node := by
  intro segs
  induction segs with
  | nil =>
    intro node n h
    simp only [walkFrom, Option.some.injEq] at h
    exact h ▸ Descendant.refl n
  | cons c rest ih =>
    intro node n h
    cases node with
    | file nm d => simp [walkFrom] at h
    | dir nm cs =>
      simp only [walkFrom] at h
      cases hg : dictGet cs c with
      | none => rw [hg] at h; cases h
      | some child =>
        rw [hg] at h
        exact Descendant.step n child c nm cs (dictGet_mem hg) (ih child n h)

lemma normStackAux_no_dots :
    ∀ (cs stack : List String), (∀ q ∈ stack, q ≠ ".." ∧ q ≠ ".") →
      ∀ q ∈ normStackAux stack cs, q ≠ ".." ∧ q ≠ "." := by
  intro cs
  induction cs with
  | nil => intro stack hs q hq; exact hs q hq
  | cons c rest ih =>
    intro stack hs q hq
    simp only [normStackAux] at hq
    by_cases h1 : c == ".."
    · rw [if_pos h1] at hq
      refine ih stack.dropLast ?_ q hq
      intro r hr
      exact hs r ((List.dropLast_sublist stack).subset hr)
    · rw [if_neg h1] at hq
      by_cases h2 : c == "."
      · rw [if_pos h2] at hq
        exact ih stack hs q hq
      · rw [if_neg h2] at hq
        refine ih (stack ++ [c]) ?_ q hq
        intro r hr
        rcases List.mem_append.1 hr with hr | hr
        · exact hs r hr
        · simp only [List.mem_singleton] at hr
          subst hr
          exact ⟨by simpa using h1, by simpa using h2⟩

lemma normStack_cons_dotdot (cs : List String) :
    normStack (".." :: cs) = normStack cs := rfl

/-- C1: `resolve_path` first normalizes the combined segment sequence with an
explicit stack — a leading `..` at root position is a no-op and never an
error, the final stack holds no `..` or `.` — then re-walks from the root
through the final stack; an empty final stack resolves to the root itself,
and every resolved node lies inside the tree rooted at the given root
(resolution never ascends above the root). -/
theorem resolve_path_normalize_then_walk (root : VFSNode) (cwd : List String)
    (path : String) :
    resolve_path root cwd path = walkFrom root (normStack (combineComps cwd path))
    ∧ (∀ cs : List String, normStack (".." :: cs) = normStack cs)
    ∧ (∀ q ∈ normStack (combineComps cwd path), q ≠ ".." ∧ q ≠ ".")
    ∧ (normStack (combineComps cwd path) = [] → resolve_path root cwd path = some root)
    ∧ (∀ n, resolve_path root cwd path = some n → Descendant n root) := by
  refine ⟨rfl, fun cs => rfl, ?_, ?_, ?_⟩
  · exact normStackAux_no_dots _ [] (by simp)
  · intro h
    unfold resolve_path
    rw [h]
    rfl
  · intro n h
    exact walkFrom_descendant _ root n h

/-- Concrete instantiation of the hypotheses of C1's theorem: in the tree
`/a`, the path `/../a` resolves to the node `a`, which is a descendant of
the root, and `/..` resolves to the root itself. -/
theorem resolve_path_normalize_then_walk_witness :
    Descendant (VFSNode.dir "a" []) (VFSNode.dir "/" [("a", VFSNode.dir "a" [])])
    ∧ resolve_path (VFSNode.dir "/" [("a", VFSNode.dir "a" [])]) [] "/.."
      = some (VFSNode.dir "/" [("a", VFSNode.dir "a" [])]) := by
  constructor
  · exact (resolve_path_normalize_then_walk
      (VFSNode.dir "/" [("a", VFSNode.dir "a" [])]) [] "/../a").2.2.2.2
      (VFSNode.dir "a" []) rfl
  · exact (resolve_path_normalize_then_walk
      (VFSNode.dir "/" [("a", VFSNode.dir "a" [])]) [] "/..").2.2.2.1 rfl

/-- Example tree holding one empty directory `a` under the root. -/
def exRootA : VFSNode := VFSNode.dir "/" [("a", VFSNode.dir "a" [])]

/-- Example tree holding two files `f` and `s` under the root. -/
def exRootF : VFSNode :=
  VFSNode.dir "/" [("f", VFSNode.file "f" [65]), ("s", VFSNode.file "s" [66])]

/-- An empty root directory. -/
def exRootE : VFSNode := VFSNode.dir "/" []

/-- C6: `resolve_parent` normalizes only the components preceding the final
one, walks that normalized prefix from the root and pairs the reached
directory with the final component's name; when that prefix does not reach a
directory the result is not-found, and the literal root path `/` is always
rejected. -/
theorem resolve_parent_prefix_walk (root : VFSNode) (cwd : List String)
    (path : String) :
    resolve_parent root cwd "/" = none
    ∧ (∀ d n, resolve_parent root cwd path = some (d, n) →
        combineComps cwd path ≠ [] →
        d.isDir = true
        ∧ walkFrom root (normStack (combineComps cwd path).dropLast) = some d
        ∧ n = (combineComps cwd path).getLastD "")
    ∧ (combineComps cwd path ≠ [] →
        (∀ nm cs, walkFrom root (normStack (combineComps cwd path).dropLast)
            ≠ some (VFSNode.dir nm cs)) →
        resolve_parent root cwd path = none) := by
  refine ⟨by simp [resolve_parent], ?_, ?_⟩
  · intro d n h hne
    unfold resolve_parent at h
    by_cases hp : path == "/"
    · rw [if_pos hp] at h; cases h
    · rw [if_neg hp] at h
      have hie : (combineComps cwd path).isEmpty = false := by
        simpa [List.isEmpty_iff] using hne
      simp only [hie, Bool.false_eq_true, if_false] at h
      cases hw : walkFrom root (normStack (combineComps cwd path).dropLast) with
      | none => rw [hw] at h; cases h
      | some x =>
        rw [hw] at h
        cases x with
        | file nm dd => cases h
        | dir nm cs =>
          rw [Option.some.injEq, Prod.mk.injEq] at h
          obtain ⟨h1, h2⟩ := h
          subst h1
          exact ⟨rfl, rfl, h2.symm⟩
  · intro hne hnd
    unfold resolve_parent
    by_cases hp : path == "/"
    · rw [if_pos hp]
    · rw [if_neg hp]
      have hie : (combineComps cwd path).isEmpty = false := by
        simpa [List.isEmpty_iff] using hne
      simp only [hie, Bool.false_eq_true, if_false]


/-- Concrete instantiation of C6's theorem: in the tree `/a`, the parent of
`/a/x` is the directory `a` paired with the leaf name `x`. -/
theorem resolve_parent_prefix_walk_witness :
    (VFSNode.dir "a" []).isDir = true
    ∧ walkFrom exRootA (normStack (combineComps [] "/a/x").dropLast)
        = some (VFSNode.dir "a" [])
    ∧ "x" = (combineComps [] "/a/x").getLastD "" :=
  (resolve_parent_prefix_walk exRootA [] "/a/x").2.1 (VFSNode.dir "a" []) "x" rfl
    (by decide)

lemma utf8DecodeTwo_ne_nil {b : Nat} {l t : List Nat}
    (h : utf8DecodeTwo b l = some t) : t ≠ [] := by
  cases l with
  | nil => cases h
  | cons b1 r =>
    simp only [utf8DecodeTwo] at h
    repeat' split at h
    all_goals
      first
      | cases h
      | (rw [Option.map_eq_some'] at h
         obtain ⟨a, -, ha⟩ := h
         intro hh
         rw [hh] at ha
         simp at ha)

lemma utf8DecodeThree_ne_nil {b : Nat} {l t : List Nat}
    (h : utf8DecodeThree b l = some t) : t ≠ [] := by
  cases l with
  | nil => cases h
  | cons b1 r1 =>
    cases r1 with
    | nil => cases h
    | cons b2 r =>
      simp only [utf8DecodeThree] at h
      repeat' split at h
      all_goals
        first
        | cases h
        | (rw [Option.map_eq_some'] at h
           obtain ⟨a, -, ha⟩ := h
           intro hh
           rw [hh] at ha
           simp at ha)

lemma utf8DecodeFour_ne_nil {b : Nat} {l t : List Nat}
    (h : utf8DecodeFour b l = some t) : t ≠ [] := by
  cases l with
  | nil => cases h
  | cons b1 r1 =>
    cases r1 with
    | nil => cases h
    | cons b2 r2 =>
      cases r2 with
      | nil => cases h
      | cons b3 r =>
        simp only [utf8DecodeFour] at h
        repeat' split at h
        all_goals
          first
          | cases h
          | (rw [Option.map_eq_some'] at h
             obtain ⟨a, -, ha⟩ := h
             intro hh
             rw [hh] at ha
             simp at ha)

lemma utf8Decode_ne_nil {data t : List Nat} (hd : data ≠ [])
    (h : utf8Decode data = some t) : t ≠ [] := by
  cases data with
  | nil => exact absurd rfl hd
  | cons b rest =>
    simp only [utf8Decode] at h
    repeat' split at h
    all_goals
      first
      | cases h
      | exact utf8DecodeTwo_ne_nil h
      | exact utf8DecodeThree_ne_nil h
      | exact utf8DecodeFour_ne_nil h
      | (rw [Option.map_eq_some'] at h
         obtain ⟨a, -, ha⟩ := h
         intro hh
         rw [hh] at ha
         simp at ha)

lemma stripCps_eq_nil_iff (l : List Nat) :
    stripCps l = [] ↔ ∀ c ∈ l, pyIsSpace c = true := by
  unfold stripCps
  rw [List.reverse_eq_nil_iff, List.dropWhile_eq_nil_iff]
  constructor
  · intro h c hc
    rcases List.mem_append.1
        ((List.takeWhile_append_dropWhile pyIsSpace l) ▸ hc) with hc' | hc'
    · exact List.mem_takeWhile_imp hc'
    · exact h c (List.mem_reverse.2 hc')
  · intro h c hc
    exact h c ((List.dropWhile_sublist pyIsSpace).subset (List.mem_reverse.1 hc))

/-- `(stripCps text).isEmpty` agrees with `text.all pyIsSpace`. -/
lemma stripCps_isEmpty_eq_all (text : List Nat) :
    (stripCps text).isEmpty = text.all pyIsSpace := by
  by_cases h : ∀ c ∈ text, pyIsSpace c = true
  · rw [List.all_eq_true.2 h, List.isEmpty_iff]
    exact (stripCps_eq_nil_iff text).2 h
  · have h1 : (stripCps text).isEmpty = false := by
      rw [Bool.eq_false_iff]
      intro hh
      exact h ((stripCps_eq_nil_iff text).1 (List.isEmpty_iff.1 hh))
    have h2 : text.all pyIsSpace = false := by
      rw [Bool.eq_false_iff]
      intro hh
      exact h (List.all_eq_true.1 hh)
    rw [h1, h2]

/-- The content-inspection policy exactly as the specification words it:
an empty byte sequence reports as empty; a UTF-8 decode failure renders as
base64 binary; all-whitespace text renders as binary; otherwise text renders
line by line when the fraction of characters that are printable or one of
newline, carriage-return, tab is at least 0.6, and as binary below that. -/
def catPolicySpec (isPrintable : Nat → Bool) (data : List Nat) : CatResult :=
  if data = [] then .emptyFile
  else
    match utf8Decode data with
    | none => .binary (b64encode data)
    | some text =>
      if text.all pyIsSpace then .binary (b64encode data)
      else
        let cnt :=
          (text.filter (fun ch => isPrintable ch || ch == 10 || ch == 13 || ch == 9)).length
        if ((cnt : ℚ) / (text.length : ℚ)) ≥ 0.6 then .text (pySplitlines text)
        else .binary (b64encode data)

lemma catRender_eq_policy (isPrintable : Nat → Bool) (data : List Nat) :
    catRender isPrintable data = catPolicySpec isPrintable data := by
  unfold catRender catPolicySpec
  by_cases hd : data = []
  · simp [hd]
  · have hie : data.isEmpty = false := by
      rw [Bool.eq_false_iff]
      intro hh
      exact hd (List.isEmpty_iff.1 hh)
    simp only [hie, Bool.false_eq_true, if_false, if_neg hd]
    cases hu : utf8Decode data with
    | none => rfl
    | some text =>
      have htne : text ≠ [] := utf8Decode_ne_nil hd hu
      have hlen : 0 < text.length := List.length_pos.2 htne
      dsimp only
      rw [stripCps_isEmpty_eq_all]
      by_cases hall : text.all pyIsSpace
      · rw [if_pos hall, if_pos hall]
      · rw [if_neg hall, if_neg hall]
        have hmax : max 1 text.length = text.length := Nat.max_eq_right hlen
        refine if_congr ?_ rfl rfl
        set cnt :=
          (text.filter (fun ch => isPrintable ch || ch == 10 || ch == 13 || ch == 9)).length
          with hcnt
        rw [hmax]
        have hlenQ : (0 : ℚ) < (text.length : ℚ) := by exact_mod_cast hlen
        constructor
        · intro h
          rw [ge_iff_le, le_div_iff₀ hlenQ]
          have h6 : (6 : ℚ) * (text.length : ℚ) ≤ 10 * (cnt : ℚ) := by exact_mod_cast h
          linarith
        · intro h
          rw [ge_iff_le, le_div_iff₀ hlenQ] at h
          have h6 : (6 : ℚ) * (text.length : ℚ) ≤ 10 * (cnt : ℚ) := by linarith
          exact_mod_cast h6

/-- C4: the `cmd_cat` content inspection is a pure function of the file's
bytes and follows exactly the ordered policy of the specification (explicit
empty report, base64 binary on decode failure, binary for all-whitespace
text, the 0.6 printable-fraction threshold for line-by-line text rendering);
moreover `cmd_cat` renders a resolved file's bytes through that policy. -/
theorem cmd_cat_policy (isPrintable : Nat → Bool) (data : List Nat) :
    catRender isPrintable data = catPolicySpec isPrintable data
    ∧ ∀ (s : ShellState) (root : VFSNode) (path : String) (rest : List String)
        (nm : String) (fdata : List Nat), s.vfs_root = some root →
        resolve_path root s.cwd path = some (VFSNode.file nm fdata) →
        (cmd_cat isPrintable s (path :: rest)).2
          = catResultLines (catPolicySpec isPrintable fdata) := by
  refine ⟨catRender_eq_policy isPrintable data, ?_⟩
  intro s root path rest nm fdata hroot hres
  unfold cmd_cat
  rw [hroot]
  dsimp only
  rw [hres]
  dsimp only
  rw [catRender_eq_policy]

/-- Concrete instantiation of C4's theorem: `cat` on the two-byte text file
`s` renders its bytes through the specification policy. -/
theorem cmd_cat_policy_witness :
    (cmd_cat (fun c => 32 ≤ c && c < 127) ⟨some exRootF, []⟩ ["s"]).2
      = catResultLines (catPolicySpec (fun c => 32 ≤ c && c < 127) [66]) :=
  (cmd_cat_policy (fun c => 32 ≤ c && c < 127) [66]).2
    ⟨some exRootF, []⟩ exRootF "s" [] "s" [66] rfl rfl

/-- Per-element check that every recognized `file` element with a named,
recognized position in the tree decodes successfully (recursing into `dir`
elements): the contrapositive of "a bad payload anywhere fails the whole
load". -/
def elemsFilesOk (pyEncode : String → String → Option (List Nat)) :
    List XmlElem → Bool
  | [] => true
  | XmlElem.mk tg attrs tx cs :: rest =>
    (if strToLower tg == "file" then
      (match attrFind attrs "name" with
       | some nm =>
         nm == ""
           || (decodeFileContent pyEncode (attrFind attrs "encoding") nm
               (tx.getD "")).isOk
       | none => true)
     else true)
    && (if strToLower tg == "dir" then elemsFilesOk pyEncode cs else true)
    && elemsFilesOk pyEncode rest

/-- A concrete codec table standing in for the Python codec registry in
witnesses and counterexamples: it knows only `utf-8`. -/
def pyEnc0 (codec : String) (t : String) : Option (List Nat) :=
  if codec == "utf-8" then some (utf8Encode t) else none

/-- C7 (amended): during loading, a non-empty encoding attribute equal to
`base64` case-insensitively base64-decodes the payload and any malformed
payload fails the whole load (no element tree with a failing file decode
processes successfully); any other non-empty encoding attribute encodes the
payload with that codec, failing descriptively when the codec rejects it;
and a missing or empty encoding attribute encodes the payload as UTF-8. -/
theorem loader_encoding_policy (pyEncode : String → String → Option (List Nat))
    (name raw : String) :
    (∀ e, e ≠ "" → strToLower e = "base64" →
      decodeFileContent pyEncode (some e) name raw
        = match b64decodeStr raw with
          | some d => .ok d
          | none => .error ("Ошибка base64 в файле " ++ name))
    ∧ (∀ e, e ≠ "" → strToLower e ≠ "base64" →
      decodeFileContent pyEncode (some e) name raw
        = match pyEncode e raw with
          | some d => .ok d
          | none => .error ("Неверная кодировка " ++ e ++ " для файла " ++ name))
    ∧ decodeFileContent pyEncode none name raw = .ok (utf8Encode raw)
    ∧ decodeFileContent pyEncode (some "") name raw = .ok (utf8Encode raw)
    ∧ (∀ elems acc r, process_elems pyEncode elems acc = .ok r →
        elemsFilesOk pyEncode elems = true) := by
  refine ⟨?_, ?_, rfl, rfl, ?_⟩
  · intro e he hb
    have h1 : (e != "" && strToLower e == "base64") = true := by
      simp [he, hb]
    unfold decodeFileContent
    dsimp only
    rw [if_pos h1]
  · intro e he hb
    have h1 : (e != "" && strToLower e == "base64") = false := by
      simp [hb]
    have h2 : (e != "") = true := by simp [he]
    unfold decodeFileContent
    dsimp only
    rw [if_neg (by simp [h1]), if_pos h2]
  · intro elems acc r h
    induction elems, acc using process_elems.induct pyEncode generalizing r with
    | case1 acc => simp [elemsFilesOk]
    | case2 tg attrs tx cs rest acc hdir e hname hne childCs hchild ih1 ih2 =>
      simp only [process_elems, hdir, hname, hne, hchild, if_true] at h
      have htg : strToLower tg = "dir" := by simpa using hdir
      simp only [elemsFilesOk, htg, hname, hne]
      simp [ih1 childCs hchild, ih2 r h]
    | case3 tg attrs tx cs rest acc hdir e hname hne msg hchild ih1 =>
      simp only [process_elems, hdir, hname, hne, hchild, if_true] at h
      cases h
    | case4 tg attrs tx cs rest acc hdir e hname hne =>
      have hne' : (e != "") = false := by simpa using hne
      simp only [process_elems, hdir, hname, hne', if_true, Bool.false_eq_true,
        if_false] at h
      cases h
    | case5 tg attrs tx cs rest acc hdir hname =>
      simp only [process_elems, hdir, hname, if_true] at h
      cases h
    | case6 tg attrs tx cs rest acc hdir hfile e hname hne data hdec ih =>
      have hdir' : (strToLower tg == "dir") = false := by simpa using hdir
      simp only [process_elems, hdir', hfile, hname, hne, hdec, Bool.false_eq_true,
        if_false, if_true] at h
      have htg : strToLower tg = "file" := by simpa using hfile
      simp only [elemsFilesOk, htg, hname]
      simp [hdec, Except.isOk, ih r h]
      exact Or.inr rfl
    | case7 tg attrs tx cs rest acc hdir hfile e hname hne msg hdec =>
      have hdir' : (strToLower tg == "dir") = false := by simpa using hdir
      simp only [process_elems, hdir', hfile, hname, hne, hdec, Bool.false_eq_true,
        if_false, if_true] at h
      cases h
    | case8 tg attrs tx cs rest acc hdir hfile e hname hne =>
      have hdir' : (strToLower tg == "dir") = false := by simpa using hdir
      have hne' : (e != "") = false := by simpa using hne
      simp only [process_elems, hdir', hfile, hname, hne', Bool.false_eq_true,
        if_false, if_true] at h
      cases h
    | case9 tg attrs tx cs rest acc hdir hfile hname =>
      have hdir' : (strToLower tg == "dir") = false := by simpa using hdir
      simp only [process_elems, hdir', hfile, hname, Bool.false_eq_true,
        if_false, if_true] at h
      cases h
    | case10 tg attrs tx cs rest acc hdir hfile ih =>
      have hdir' : (strToLower tg == "dir") = false := by simpa using hdir
      have hfile' : (strToLower tg == "file") = false := by simpa using hfile
      simp only [process_elems, hdir', hfile', Bool.false_eq_true, if_false] at h
      simp only [elemsFilesOk, hdir', hfile', Bool.false_eq_true, if_false,
        Bool.true_and]
      exact ih r h

/-- Counterexample to C7 as stated: the encoding attribute `""` is not
`base64` and names no supported codec (the registry rejects it), so the
claim requires a descriptive failure — but the loader treats the falsy
empty attribute as absent and encodes the payload as UTF-8. -/
theorem loader_empty_encoding_counterexample :
    strToLower "" ≠ "base64"
    ∧ pyEnc0 "" "hi" = none
    ∧ decodeFileContent pyEnc0 (some "") "f" "hi" = .ok (utf8Encode "hi")
    ∧ decodeFileContent pyEnc0 (some "") "f" "hi"
        ≠ .error ("Неверная кодировка " ++ "" ++ " для файла " ++ "f") := by
  refine ⟨by decide, rfl, rfl, ?_⟩
  intro h
  cases h

/-- Concrete instantiation of the hypotheses of C7's theorem: the attribute
`Base64` takes the base64 branch case-insensitively, and a successfully
processed element list has all its file payloads decoded. -/
theorem loader_encoding_policy_witness :
    (decodeFileContent pyEnc0 (some "Base64") "f" "QQ=="
      = match b64decodeStr "QQ==" with
        | some d => Except.ok d
        | none => Except.error ("Ошибка base64 в файле " ++ "f"))
    ∧ elemsFilesOk pyEnc0 [XmlElem.mk "file" [("name", "a")] (some "x") []] = true :=
  ⟨(loader_encoding_policy pyEnc0 "f" "QQ==").1 "Base64" (by decide) (by decide),
   (loader_encoding_policy pyEnc0 "f" "QQ==").2.2.2.2
     [XmlElem.mk "file" [("name", "a")] (some "x") []] []
     [("a", VFSNode.file "a" (utf8Encode "x"))]
     (by simp +decide [process_elems, decodeFileContent, attrFind, dictSet, dictHas])⟩

/-- Counterexample to C5 as stated: `cd /a/..` resolves to the root
directory, whose normalized absolute segment sequence is `[]`, yet the
absolute branch of `vfs_change_dir` stores the unnormalized `split_path`
result, leaving a `..` segment in the current location. -/
theorem cmd_cd_counterexample :
    resolve_path exRootA [] "/a/.." = some exRootA
    ∧ normStack (combineComps [] "/a/..") = []
    ∧ (cmd_cd ⟨some exRootA, []⟩ ["/a/.."]).1.cwd = ["a", ".."]
    ∧ ".." ∈ (cmd_cd ⟨some exRootA, []⟩ ["/a/.."]).1.cwd :=
  ⟨rfl, by decide, rfl, by decide⟩

/-- C5 (amended): `cd` with no argument resets the location to the root;
with an argument resolving to a directory it stores `split_path path`
verbatim for an absolute path (which can retain `..` segments) and the
stack-normalized concatenation for a relative path; every failure — no tree
loaded, path absent, target a file — leaves the state unchanged. -/
theorem cmd_cd_behavior (s : ShellState) (path : String) (root : VFSNode) :
    (s.vfs_root = some root → (cmd_cd s []).1 = ⟨some root, []⟩)
    ∧ (s.vfs_root = none → (cmd_cd s []).1 = s)
    ∧ (s.vfs_root = some root → path = "/" → (cmd_cd s [path]).1 = ⟨some root, []⟩)
    ∧ (s.vfs_root = some root → path ≠ "/" →
        (∃ nm cs, resolve_path root s.cwd path = some (VFSNode.dir nm cs)) →
        (cmd_cd s [path]).1.cwd
          = (if startsSlash path then split_path path
             else normStack (s.cwd ++ split_path path))
        ∧ (cmd_cd s [path]).1.vfs_root = some root)
    ∧ (s.vfs_root = some root → path ≠ "/" →
        (∀ nm cs, resolve_path root s.cwd path ≠ some (VFSNode.dir nm cs)) →
        (cmd_cd s [path]).1 = s)
    ∧ (s.vfs_root = none → (cmd_cd s [path]).1 = s) := by
  refine ⟨?_, ?_, ?_, ?_, ?_, ?_⟩
  · intro h
    simp [cmd_cd, vfs_change_dir, h]
  · intro h
    simp [cmd_cd, vfs_change_dir, h]
  · intro h hp
    subst hp
    simp [cmd_cd, vfs_change_dir, h]
  · intro h hne hex
    obtain ⟨nm, cs, hres⟩ := hex
    have hp : (path == "/") = false := by simpa using hne
    unfold cmd_cd vfs_change_dir
    simp only [h, hp, Bool.false_eq_true, if_false, hres]
    by_cases hs : startsSlash path
    · rw [if_pos hs, if_pos hs]
      exact ⟨rfl, rfl⟩
    · rw [if_neg hs, if_neg hs]
      exact ⟨rfl, rfl⟩
  · intro h hne hnd
    have hp : (path == "/") = false := by simpa using hne
    unfold cmd_cd vfs_change_dir
    simp only [h, hp, Bool.false_eq_true, if_false]
  · intro h
    simp [cmd_cd, vfs_change_dir, h]

/-- Concrete instantiation of the hypotheses of C5's theorem: a relative
`cd a` in the tree `/a` moves the location to the normalized sequence
`["a"]` and keeps the tree. -/
theorem cmd_cd_behavior_witness :
    (cmd_cd ⟨some exRootA, []⟩ ["a"]).1.cwd
      = (if startsSlash "a" then split_path "a" else normStack ([] ++ split_path "a"))
    ∧ (cmd_cd ⟨some exRootA, []⟩ ["a"]).1.vfs_root = some exRootA :=
  (cmd_cd_behavior ⟨some exRootA, []⟩ "a" exRootA).2.2.2.1 rfl (by decide)
    ⟨"a", [], rfl⟩

/-- Counterexample to C9 as stated: with no tree loaded, `cat x` reports the
canonical not-loaded message and then a second `not found` error line, so
the not-loaded condition is not its only error output. -/
theorem notloaded_cat_two_messages :
    (cmd_cat (fun _ => true) ⟨none, []⟩ ["x"]).2
      = ["VFS не загружен.", "cat: файл не найден: x"]
    ∧ (cmd_cat (fun _ => true) ⟨none, []⟩ ["x"]).2 ≠ ["VFS не загружен."] :=
  ⟨rfl, by decide⟩

/-- C9 (amended): with no tree loaded, every VFS-dependent command leaves
the state unchanged and reports the canonical not-loaded message first and
never a null-reference fault; `vfsinfo`, `rmdir` and `cp` report it as their
only output, while `ls` and `cat` with an explicit target and `cd` follow it
with their own not-found/failure line. -/
theorem notloaded_behavior (s : ShellState) (vfsPathStr a b : String)
    (rest : List String) (h : s.vfs_root = none) :
    cmd_ls s [] = (s, ["VFS не загружен."])
    ∧ cmd_ls s (a :: rest)
        = (s, if a == "." then ["VFS не загружен."]
              else ["VFS не загружен.", "ls: путь не найден: " ++ a])
    ∧ cmd_cd s [] = (s, ["VFS не загружен.", "cd: не удалось перейти в /"])
    ∧ cmd_cd s (a :: rest)
        = (s, ["VFS не загружен.",
               "cd: путь не найден или не является директорией: " ++ a])
    ∧ (∀ isP, cmd_cat isP s (a :: rest)
        = (s, ["VFS не загружен.", "cat: файл не найден: " ++ a]))
    ∧ cmd_vfsinfo vfsPathStr s rest = (s, ["VFS не загружен."])
    ∧ cmd_rmdir s (a :: rest) = (s, ["VFS не загружен."])
    ∧ cmd_cp s (a :: b :: rest) = (s, ["VFS не загружен."]) := by
  refine ⟨?_, ?_, ?_, ?_, ?_, ?_, ?_, ?_⟩
  · simp [cmd_ls, h]
  · by_cases ha : a == "."
    · simp [cmd_ls, ha, h]
    · simp [cmd_ls, ha, h]
  · simp [cmd_cd, vfs_change_dir, h]
  · simp [cmd_cd, vfs_change_dir, h]
  · intro isP
    simp [cmd_cat, h]
  · simp [cmd_vfsinfo, h]
  · simp [cmd_rmdir, h]
  · simp [cmd_cp, h]

/-- Concrete instantiation of C9's theorem at the empty not-loaded state. -/
theorem notloaded_behavior_witness :
    cmd_rmdir ⟨none, []⟩ ["x"] = (⟨none, []⟩, ["VFS не загружен."])
    ∧ cmd_cp ⟨none, []⟩ ["x", "y"] = (⟨none, []⟩, ["VFS не загружен."]) :=
  ⟨(notloaded_behavior ⟨none, []⟩ "p" "x" "y" [] rfl).2.2.2.2.2.2.1,
   (notloaded_behavior ⟨none, []⟩ "p" "x" "y" [] rfl).2.2.2.2.2.2.2⟩

lemma single_ne_1 (a b path : String) (h : a.length ≠ b.length) :
    ([a ++ path] : List String) ≠ [b ++ path] := by
  intro he
  rw [List.cons.injEq] at he
  have h2 := congrArg String.length he.1
  simp only [String.length_append] at h2
  exact h (by omega)

lemma single_ne_2 (a suf b path : String) (h : a.length + suf.length ≠ b.length) :
    ([a ++ path ++ suf] : List String) ≠ [b ++ path] := by
  intro he
  rw [List.cons.injEq] at he
  have h2 := congrArg String.length he.1
  simp only [String.length_append] at h2
  exact h (by omega)

lemma remove_child_fst (cs : List (String × VFSNode)) (k : String) :
    (remove_child cs k).1 = dictHas cs k := by
  unfold remove_child
  by_cases h : dictHas cs k
  · rw [if_pos h, h]
  · rw [if_neg h]
    simp only [Bool.not_eq_true] at h
    rw [h]

/-- Counterexample to C2 as stated: on an empty loaded tree, `rmdir .`
resolves to the root (a directory with empty children) and its parent is
resolvable (`resolve_parent` returns `(root, '')`), so the claim requires
success — but `remove_child('')` finds no such key and the command fails. -/
theorem cmd_rmdir_counterexample :
    resolve_path exRootE [] "." = some exRootE
    ∧ (∃ p, resolve_parent exRootE [] "." = some p)
    ∧ (cmd_rmdir ⟨some exRootE, []⟩ ["."]).2 = ["rmdir: не удалось удалить ."]
    ∧ (cmd_rmdir ⟨some exRootE, []⟩ ["."]).1 = ⟨some exRootE, []⟩ :=
  ⟨rfl, ⟨(exRootE, ""), rfl⟩, rfl, rfl⟩

/-- C2 (amended): `rmdir` succeeds iff the path resolves to a directory with
empty children mapping, `resolve_parent` resolves, and the leaf name it
returns actually is a key of the resolved parent's children (so removals
such as `rmdir .` or `rmdir ..`, whose leaf name is not a real key, fail
even though the target is an empty resolvable directory); on success exactly
that key is detached from the parent; every failure reports an error and
leaves the state exactly as it was — no partial detach. -/
theorem cmd_rmdir_charact (s : ShellState) (root : VFSNode) (path : String)
    (rest : List String) (h : s.vfs_root = some root) :
    ((cmd_rmdir s (path :: rest)).2 = ["rmdir: удалено " ++ path] ↔
      ((∃ nm, resolve_path root s.cwd path = some (VFSNode.dir nm []))
       ∧ ∃ psegs name pnm pcs,
           resolve_parent_segs root s.cwd path = some (psegs, name)
           ∧ walkFrom root psegs = some (VFSNode.dir pnm pcs)
           ∧ dictHas pcs name = true))
    ∧ ((cmd_rmdir s (path :: rest)).2 ≠ ["rmdir: удалено " ++ path] →
        (cmd_rmdir s (path :: rest)).1 = s)
    ∧ (∀ psegs name, resolve_parent_segs root s.cwd path = some (psegs, name) →
        (cmd_rmdir s (path :: rest)).2 = ["rmdir: удалено " ++ path] →
        (cmd_rmdir s (path :: rest)).1
          = ⟨some (updateAt psegs (fun l => dictDel l name) root), s.cwd⟩) := by
  unfold cmd_rmdir
  simp only [h]
  cases hres : resolve_path root s.cwd path with
  | none =>
    refine ⟨⟨fun he => absurd he (single_ne_1 _ _ path (by decide)), ?_⟩, fun _ => rfl,
      fun psegs name hp he => absurd he (single_ne_1 _ _ path (by decide))⟩
    rintro ⟨⟨nm, hnm⟩, -⟩
    cases hnm
  | some node =>
    cases node with
    | file nm d =>
      refine ⟨⟨fun he => absurd he (single_ne_2 _ _ _ path (by decide)), ?_⟩,
        fun _ => rfl,
        fun psegs name hp he => absurd he (single_ne_2 _ _ _ path (by decide))⟩
      rintro ⟨⟨nm', hnm⟩, -⟩
      cases hnm
    | dir nm cs =>
      by_cases hcs : cs.isEmpty
      · have hcsnil : cs = [] := List.isEmpty_iff.1 hcs
        subst hcsnil
        simp only [List.isEmpty_nil, Bool.not_true, Bool.false_eq_true, if_false]
        cases hp : resolve_parent_segs root s.cwd path with
        | none =>
          refine ⟨⟨fun he => absurd he (single_ne_1 _ _ path (by decide)), ?_⟩,
            fun _ => rfl, ?_⟩
          · rintro ⟨-, psegs, name, pnm, pcs, hp', -⟩
            cases hp'
          · intro psegs name hp' he
            cases hp'
        | some pr =>
          obtain ⟨psegs, name⟩ := pr
          dsimp only
          cases hw : walkFrom root psegs with
          | none =>
            refine ⟨⟨fun he => absurd he (single_ne_1 _ _ path (by decide)), ?_⟩,
              fun _ => rfl,
              fun psegs' name' hp' he => absurd he (single_ne_1 _ _ path (by decide))⟩
            rintro ⟨-, psegs', name', pnm', pcs', hp', hw', -⟩
            rw [Option.some.injEq, Prod.mk.injEq] at hp'
            obtain ⟨h1, h2⟩ := hp'
            subst h1
            rw [hw] at hw'
            cases hw'
          | some pnode =>
            cases pnode with
            | file pn pd =>
              refine ⟨⟨fun he => absurd he (single_ne_1 _ _ path (by decide)), ?_⟩,
                fun _ => rfl,
                fun psegs' name' hp' he => absurd he (single_ne_1 _ _ path (by decide))⟩
              rintro ⟨-, psegs', name', pnm', pcs', hp', hw', -⟩
              rw [Option.some.injEq, Prod.mk.injEq] at hp'
              obtain ⟨h1, h2⟩ := hp'
              subst h1
              rw [hw] at hw'
              simp at hw'
            | dir pnm pcs =>
              dsimp only
              rw [remove_child_fst]
              by_cases hhas : dictHas pcs name
              · rw [if_pos hhas]
                refine ⟨⟨fun _ => ⟨⟨nm, rfl⟩, psegs, name, pnm, pcs, rfl, hw, hhas⟩,
                  fun _ => rfl⟩, fun hne => absurd rfl hne, ?_⟩
                intro psegs' name' hp' he
                rw [Option.some.injEq, Prod.mk.injEq] at hp'
                obtain ⟨h1, h2⟩ := hp'
                subst h1
                subst h2
                rfl
              · have hhas' : dictHas pcs name = false := by
                  simpa using hhas
                simp only [hhas', Bool.false_eq_true, if_false]
                refine ⟨⟨fun he => absurd he (single_ne_1 _ _ path (by decide)), ?_⟩,
                  fun _ => trivial,
                  fun psegs' name' hp' he =>
                    absurd he (single_ne_1 _ _ path (by decide))⟩
                rintro ⟨-, psegs', name', pnm', pcs', hp', hw', hhas2⟩
                rw [Option.some.injEq, Prod.mk.injEq] at hp'
                obtain ⟨h1, h2⟩ := hp'
                subst h1
                subst h2
                rw [hw, Option.some.injEq, VFSNode.dir.injEq] at hw'
                obtain ⟨h3, h4⟩ := hw'
                subst h4
                exact absurd hhas2 (by simp [hhas'])
      · have hcs' : cs.isEmpty = false := by simpa using hcs
        have hcsne : cs ≠ [] := by
          intro hh
          rw [hh] at hcs'
          cases hcs'
        simp only [hcs', Bool.not_false, if_true]
        refine ⟨⟨fun he => absurd he (single_ne_2 _ _ _ path (by decide)), ?_⟩,
          fun _ => trivial,
          fun psegs name hp he => absurd he (single_ne_2 _ _ _ path (by decide))⟩
        rintro ⟨⟨nm', hnm⟩, -⟩
        rw [Option.some.injEq, VFSNode.dir.injEq] at hnm
        exact absurd hnm.2 hcsne

/-- Concrete instantiation of C2's theorem: `rmdir a` on the tree `/a`
succeeds (the target is an empty directory whose parent holds the key `a`)
and the resulting tree is the root with `a` detached. -/
theorem cmd_rmdir_charact_witness :
    ((cmd_rmdir ⟨some exRootA, []⟩ ["a"]).2 = ["rmdir: удалено " ++ "a"])
    ∧ (cmd_rmdir ⟨some exRootA, []⟩ ["a"]).1
        = ⟨some (updateAt [] (fun l => dictDel l "a") exRootA), []⟩ := by
  have h := cmd_rmdir_charact ⟨some exRootA, []⟩ exRootA "a" [] rfl
  have hsucc := h.1.2 ⟨⟨"a", rfl⟩, [], "a", "/", [("a", VFSNode.dir "a" [])], rfl, rfl, rfl⟩
  exact ⟨hsucc, h.2.2 [] "a" rfl hsucc⟩

/-- Counterexample to C3 as stated: with files `f` and `s` at the root,
the destination `f/g/..` resolves to the existing file `f` (the `..` pops
`g` during normalization), so the claim requires `f` to be replaced in
place — but `resolve_parent` walks the prefix `f/g` and fails at the file
`f`, so the copy is rejected and the tree is unchanged. -/
theorem cmd_cp_counterexample :
    resolve_path exRootF [] "f/g/.." = some (VFSNode.file "f" [65])
    ∧ resolve_parent exRootF [] "f/g/.." = none
    ∧ (cmd_cp ⟨some exRootF, []⟩ ["s", "f/g/.."]).2
        = ["cp: не удалось найти родителя для f/g/.."]
    ∧ (cmd_cp ⟨some exRootF, []⟩ ["s", "f/g/.."]).1 = ⟨some exRootF, []⟩ :=
  ⟨rfl, rfl, rfl, rfl⟩

/-- C3 (amended): for `cp src dst` on a loaded tree with `src` resolving to
a file: a `dst` resolving to a directory receives a copy under the source's
base name unless that name is occupied by a directory (rejected, no change);
a `dst` resolving to a file or to nothing goes through `resolve_parent` —
when the parent resolves, the copy is stored under the leaf name unless a
directory occupies it, and when `resolve_parent` fails the copy is rejected
with no change, even though `dst` named an existing file; `cp` fails when
`src` is absent or names a directory. -/
theorem cmd_cp_behavior (s : ShellState) (root : VFSNode) (src dst : String)
    (rest : List String) (h : s.vfs_root = some root) :
    (resolve_path root s.cwd src = none →
      cmd_cp s (src :: dst :: rest) = (s, ["cp: источник не найден: " ++ src]))
    ∧ (∀ nm cs, resolve_path root s.cwd src = some (VFSNode.dir nm cs) →
      cmd_cp s (src :: dst :: rest)
        = (s, ["cp: копирование директорий не поддерживается: " ++ src]))
    ∧ (∀ srcName srcData,
        resolve_path root s.cwd src = some (VFSNode.file srcName srcData) →
        ((∀ dnm dcs, resolve_path root s.cwd dst = some (VFSNode.dir dnm dcs) →
           (∀ enm ecs, dictGet dcs srcName ≠ some (VFSNode.dir enm ecs)) →
           cmd_cp s (src :: dst :: rest)
             = (⟨some (updateAt (normStack (combineComps s.cwd dst))
                   (fun l => dictSet l srcName (VFSNode.file srcName srcData)) root),
                 s.cwd⟩,
                ["cp: скопировано " ++ src ++ " -> " ++ dst]))
         ∧ (∀ dnm dcs enm ecs,
             resolve_path root s.cwd dst = some (VFSNode.dir dnm dcs) →
             dictGet dcs srcName = some (VFSNode.dir enm ecs) →
             cmd_cp s (src :: dst :: rest)
               = (s, ["cp: не могу перезаписать директорию: " ++ dst]))
         ∧ (∀ psegs name pnm pcs,
             (resolve_path root s.cwd dst = none
              ∨ ∃ fn fd, resolve_path root s.cwd dst = some (VFSNode.file fn fd)) →
             resolve_parent_segs root s.cwd dst = some (psegs, name) →
             walkFrom root psegs = some (VFSNode.dir pnm pcs) →
             (∀ enm ecs, dictGet pcs name ≠ some (VFSNode.dir enm ecs)) →
             cmd_cp s (src :: dst :: rest)
               = (⟨some (updateAt psegs
                     (fun l => dictSet l name (VFSNode.file name srcData)) root),
                   s.cwd⟩,
                  ["cp: скопировано " ++ src ++ " -> " ++ dst]))
         ∧ (∀ psegs name pnm pcs enm ecs,
             (resolve_path root s.cwd dst = none
              ∨ ∃ fn fd, resolve_path root s.cwd dst = some (VFSNode.file fn fd)) →
             resolve_parent_segs root s.cwd dst = some (psegs, name) →
             walkFrom root psegs = some (VFSNode.dir pnm pcs) →
             dictGet pcs name = some (VFSNode.dir enm ecs) →
             cmd_cp s (src :: dst :: rest)
               = (s, ["cp: не могу перезаписать директорию: " ++ dst]))
         ∧ (∀ fn fd, resolve_path root s.cwd dst = some (VFSNode.file fn fd) →
             resolve_parent_segs root s.cwd dst = none →
             cmd_cp s (src :: dst :: rest)
               = (s, ["cp: не удалось найти родителя для " ++ dst]))
         ∧ (resolve_path root s.cwd dst = none →
             resolve_parent_segs root s.cwd dst = none →
             cmd_cp s (src :: dst :: rest)
               = (s, ["cp: родительская директория для " ++ dst ++ " не найдена"])))) := by
  unfold cmd_cp
  simp only [h]
  refine ⟨?_, ?_, ?_⟩
  · intro hsrc
    simp only [hsrc]
  · intro nm cs hsrc
    simp only [hsrc]
  · intro srcName srcData hsrc
    simp only [hsrc]
    refine ⟨?_, ?_, ?_, ?_, ?_, ?_⟩
    · intro dnm dcs hdst hocc
      have hdst' : walkFrom root (normStack (combineComps s.cwd dst))
          = some (VFSNode.dir dnm dcs) := hdst
      simp only [hdst, hdst']
    · intro dnm dcs enm ecs hdst hocc
      have hdst' : walkFrom root (normStack (combineComps s.cwd dst))
          = some (VFSNode.dir dnm dcs) := hdst
      simp only [hdst, hdst', hocc]
    · intro psegs name pnm pcs hdst hp hw hocc
      rcases hdst with hdst | ⟨fn, fd, hdst⟩ <;>
        simp only [hdst, hp, hw]
    · intro psegs name pnm pcs enm ecs hdst hp hw hocc
      rcases hdst with hdst | ⟨fn, fd, hdst⟩ <;>
        simp only [hdst, hp, hw, hocc]
    · intro fn fd hdst hp
      simp only [hdst, hp]
    · intro hdst hp
      simp only [hdst, hp]

/-- Example tree holding an empty directory `d` and a file `s` at the root. -/
def exRootD : VFSNode :=
  VFSNode.dir "/" [("d", VFSNode.dir "d" []), ("s", VFSNode.file "s" [66])]

/-- Concrete instantiation of C3's theorem: `cp s d` with `d` an existing
directory inserts a copy of `s` under its base name inside `d`. -/
theorem cmd_cp_behavior_witness :
    cmd_cp ⟨some exRootD, []⟩ ["s", "d"]
      = (⟨some (updateAt (normStack (combineComps [] "d"))
            (fun l => dictSet l "s" (VFSNode.file "s" [66])) exRootD), []⟩,
         ["cp: скопировано " ++ "s" ++ " -> " ++ "d"]) :=
  ((cmd_cp_behavior ⟨some exRootD, []⟩ exRootD "s" "d" [] rfl).2.2 "s" [66] rfl).1
    "d" [] rfl (fun enm ecs hg => by cases hg)

lemma dropWhile_head_not {α : Type} (p : α → Bool) :
    ∀ (l : List α) (a : α) (t' : List α), l.dropWhile p = a :: t' → p a = false := by
  intro l
  induction l with
  | nil => intro a t' h; cases h
  | cons x xs ih =>
    intro a t' h
    rw [List.dropWhile_cons] at h
    by_cases hx : p x
    · rw [if_pos hx] at h
      exact ih a t' h
    · rw [if_neg hx] at h
      obtain ⟨h1, -⟩ := List.cons.injEq .. ▸ h
      subst h1
      simpa using hx

lemma strip_head {α : Type} (p : α → Bool) (l : List α) (a : α) (t' : List α)
    (h : l.dropWhile p = a :: t') :
    (((l.dropWhile p).reverse.dropWhile p).reverse).head? = some a := by
  have hpa : p a = false := dropWhile_head_not p l a t' h
  rw [h, List.reverse_cons, List.dropWhile_append]
  by_cases he : (t'.reverse.dropWhile p).isEmpty
  · rw [if_pos he]
    simp [List.dropWhile, hpa]
  · rw [if_neg he]
    rw [List.reverse_append]
    simp

lemma strip_nil_iff {α : Type} (p : α → Bool) (l : List α) :
    ((l.dropWhile p).reverse.dropWhile p).reverse = [] ↔ ∀ c ∈ l, p c = true := by
  rw [List.reverse_eq_nil_iff, List.dropWhile_eq_nil_iff]
  constructor
  · intro h c hc
    rcases List.mem_append.1 ((List.takeWhile_append_dropWhile p l) ▸ hc)
      with hc' | hc'
    · exact List.mem_takeWhile_imp hc'
    · exact h c (List.mem_reverse.2 hc')
  · intro h c hc
    exact h c ((List.dropWhile_sublist p).subset (List.mem_reverse.1 hc))

/-- The specification's filter on script lines: keep exactly the lines that
are not blank and whose first non-whitespace character is not `#`. -/
def specKeeps (ln : String) : Bool :=
  let t := ln.data.dropWhile (fun c => pyIsSpace c.toNat)
  !t.isEmpty && !(t.headD '#' == '#')

lemma pyStrip_data (s : String) :
    (pyStrip s).data
      = (((s.data.dropWhile (fun c => pyIsSpace c.toNat)).reverse.dropWhile
          (fun c => pyIsSpace c.toNat)).reverse) := rfl

lemma scriptFilter_eq_spec (raw : List String) :
    scriptFilter raw = (raw.filter specKeeps).map rstripNl := by
  induction raw with
  | nil => rfl
  | cons ln rest ih =>
    rw [scriptFilter, List.filter]
    cases ht : ln.data.dropWhile (fun c => pyIsSpace c.toNat) with
    | nil =>
      have hstrip : pyStrip ln = "" := by
        apply String.ext
        rw [pyStrip_data, ht]
        rfl
      have hkeep : specKeeps ln = false := by
        unfold specKeeps
        rw [ht]
        rfl
      rw [if_pos (by simp [hstrip]), hkeep]
      exact ih
    | cons a t' =>
      have hhead : (pyStrip ln).data.head? = some a := by
        rw [pyStrip_data]
        exact strip_head _ ln.data a t' ht
      have hne : ¬(pyStrip ln == "") = true := by
        intro hh
        have : pyStrip ln = "" := by simpa using hh
        rw [this] at hhead
        cases hhead
      rw [if_neg hne]
      have hsh : startsHash (pyStrip ln) = (a == '#') := by
        unfold startsHash
        cases hd : (pyStrip ln).data with
        | nil => rw [hd] at hhead; cases hhead
        | cons b bs =>
          rw [hd] at hhead
          obtain h1 : b = a := by simpa using hhead
          rw [h1]
      have hkeep : specKeeps ln = !(a == '#') := by
        unfold specKeeps
        rw [ht]
        rfl
      rw [hsh, hkeep]
      by_cases hA : a == '#'
      · rw [if_pos hA, hA]
        exact ih
      · have hA' : (a == '#') = false := by simpa using hA
        rw [hA']
        simp only [Bool.not_false, Bool.false_eq_true, if_false, if_true,
          List.map_cons]
        rw [ih]

lemma execute_line_fst (runH runH2 : String → List String → Except String (List String))
    (u l : String) :
    (execute_line runH u l).1 = (execute_line runH2 u l).1 := by
  unfold execute_line
  by_cases hl : (rstripNl l == "") = true
  · rw [if_pos hl, if_pos hl]
  · rw [if_neg hl, if_neg hl]
    cases pySplitWs (rstripNl l) with
    | nil => rfl
    | cons cmd args =>
      by_cases hc : commandNames.contains cmd
      · dsimp only
        rw [if_pos hc, if_pos hc]
        cases runH cmd args <;> cases runH2 cmd args <;> rfl
      · dsimp only
        rw [if_neg hc, if_neg hc]

/-- C8: the script runner dispatches exactly the lines that are neither
blank nor have `#` as their first non-space character, in original order
(the code's strip-based filter coincides with that specification); which
lines are dispatched is independent of what the handlers do, so a raising
handler never prevents later lines from being dispatched and is itself
reported; and when no lines survive the filter, the empty-script condition
is reported once and nothing is dispatched. -/
theorem script_runner_spec
    (runH runH2 : String → List String → Except String (List String))
    (userHost : String) (raw_lines : List String) :
    scriptFilter raw_lines = (raw_lines.filter specKeeps).map rstripNl
    ∧ (run_startup_script runH userHost raw_lines).1
        = (run_startup_script runH2 userHost raw_lines).1
    ∧ (scriptFilter raw_lines = [] →
        run_startup_script runH userHost raw_lines
          = ([], ["Стартовый скрипт пуст или содержит только комментарии."]))
    ∧ (∀ line cmd args e, pySplitWs (rstripNl line) = cmd :: args →
        commandNames.contains cmd = true → runH cmd args = .error e →
        (execute_line runH userHost line).2
          = [userHost ++ ":~$ " ++ rstripNl line,
             "Ошибка выполнения команды " ++ cmd ++ " в скрипте: " ++ e]
        ∧ (execute_line runH userHost line).1 = [(cmd, args)]) := by
  refine ⟨scriptFilter_eq_spec raw_lines, ?_, ?_, ?_⟩
  · unfold run_startup_script
    by_cases he : (scriptFilter raw_lines).isEmpty
    · rw [if_pos he, if_pos he]
    · rw [if_neg he, if_neg he]
      induction scriptFilter raw_lines with
      | nil => rfl
      | cons l rest ih =>
        simp only [List.foldr]
        rw [execute_line_fst runH runH2]
        cases hr : rest with
        | nil => rfl
        | cons x xs =>
          rw [← hr]
          have ih' := ih
          simp only [List.foldr] at ih' ⊢
          rw [show (rest.foldr (fun l acc =>
              ((execute_line runH userHost l).1 ++ acc.1,
               (execute_line runH userHost l).2 ++ acc.2)) ([], [])).1
            = (rest.foldr (fun l acc =>
              ((execute_line runH2 userHost l).1 ++ acc.1,
               (execute_line runH2 userHost l).2 ++ acc.2)) ([], [])).1 from ih']
  · intro hnil
    unfold run_startup_script
    rw [if_pos (by simp [hnil])]
  · intro line cmd args e hsplit hc herr
    unfold execute_line
    by_cases hl : (rstripNl line == "") = true
    · have : rstripNl line = "" := by simpa using hl
      rw [this] at hsplit
      cases hsplit
    · rw [if_neg hl]
      dsimp only
      rw [hsplit]
      dsimp only
      rw [if_pos hc, herr]
      exact ⟨rfl, rfl⟩

/-- Concrete instantiation of the hypotheses of C8's theorem: a script of
one comment and one blank line reports the empty condition once, and a line
whose handler raises is echoed and reported with its dispatch recorded. -/
theorem script_runner_spec_witness :
    run_startup_script (fun _ _ => .error "boom") "u@h" ["# c", "  "]
      = ([], ["Стартовый скрипт пуст или содержит только комментарии."])
    ∧ (execute_line (fun _ _ => .error "boom") "u@h" "ls a\n").2
        = ["u@h" ++ ":~$ " ++ rstripNl "ls a\n",
           "Ошибка выполнения команды " ++ "ls" ++ " в скрипте: " ++ "boom"]
    ∧ (execute_line (fun _ _ => .error "boom") "u@h" "ls a\n").1 = [("ls", ["a"])] := by
  have h := script_runner_spec (fun _ _ => .error "boom") (fun _ _ => .ok [])
    "u@h" ["# c", "  "]
  refine ⟨h.2.2.1 (by decide), ?_, ?_⟩
  · exact (h.2.2.2 "ls a\n" "ls" ["a"] "boom" (by decide) (by decide) rfl).1
  · exact (h.2.2.2 "ls a\n" "ls" ["a"] "boom" (by decide) (by decide) rfl).2

mutual
/-- Name consistency of a node: every directory in it stores each child
under exactly the child's own name. -/
def nameConsistent : VFSNode → Bool
  | .file _ _ => true
  | .dir _ cs => nameConsistentL cs

/-- Name consistency of a children mapping and everything below it. -/
def nameConsistentL : List (String × VFSNode) → Bool
  | [] => true
  | (k, n) :: rest =>
    (VFSNode.name n == k) && nameConsistent n && nameConsistentL rest
end

lemma nameConsistentL_mem :
    ∀ (cs : List (String × VFSNode)) (k : String) (n : VFSNode),
      nameConsistentL cs = true → (k, n) ∈ cs →
      VFSNode.name n = k ∧ nameConsistent n = true := by
  intro cs
  induction cs with
  | nil => intro k n _ hm; cases hm
  | cons p ps ih =>
    intro k n h hm
    obtain ⟨k', n'⟩ := p
    simp only [nameConsistentL, Bool.and_eq_true] at h
    obtain ⟨⟨hname, hcons⟩, hrest⟩ := h
    rcases List.mem_cons.1 hm with hm | hm
    · obtain ⟨h1, h2⟩ := Prod.mk.injEq .. ▸ hm
      subst h1
      subst h2
      exact ⟨by simpa using hname, hcons⟩
    · exact ih k n hrest hm

lemma descendant_consistent {d r : VFSNode} (hd : Descendant d r) :
    nameConsistent r = true → nameConsistent d = true := by
  induction hd with
  | refl => exact fun h => h
  | step c k nm cs hmem hsub ih =>
    intro hc
    refine ih ?_
    have : nameConsistentL cs = true := by
      simpa [nameConsistent] using hc
    exact (nameConsistentL_mem cs k c this hmem).2

lemma updateAt_name (segs : List String)
    (f : List (String × VFSNode) → List (String × VFSNode)) (node : VFSNode) :
    VFSNode.name (updateAt segs f node) = VFSNode.name node := by
  cases segs <;> cases node <;> rfl

lemma nameConsistentL_append (a b : List (String × VFSNode)) :
    nameConsistentL (a ++ b) = (nameConsistentL a && nameConsistentL b) := by
  induction a with
  | nil => simp [nameConsistentL]
  | cons p ps ih =>
    obtain ⟨k, n⟩ := p
    simp [nameConsistentL, ih, Bool.and_assoc]

lemma nameConsistentL_dictSet {cs : List (String × VFSNode)} {k : String}
    {v : VFSNode} (h : nameConsistentL cs = true) (hv : VFSNode.name v = k)
    (hcv : nameConsistent v = true) : nameConsistentL (dictSet cs k v) = true := by
  unfold dictSet
  by_cases hh : dictHas cs k
  · rw [if_pos hh]
    clear hh
    induction cs with
    | nil => rfl
    | cons p ps ih =>
      obtain ⟨k', n'⟩ := p
      simp only [nameConsistentL, Bool.and_eq_true] at h
      obtain ⟨⟨hname, hcons⟩, hrest⟩ := h
      simp only [List.map_cons]
      by_cases hk : (k' == k)
      · rw [if_pos (by simpa using hk)]
        simp only [nameConsistentL, Bool.and_eq_true]
        have : k' = k := by simpa using hk
        subst this
        exact ⟨⟨by simp [hv], hcv⟩, ih hrest⟩
      · rw [if_neg (by simpa using hk)]
        simp only [nameConsistentL, Bool.and_eq_true]
        exact ⟨⟨hname, hcons⟩, ih hrest⟩
  · rw [if_neg hh]
    rw [nameConsistentL_append, h]
    simp [nameConsistentL, hv, hcv]

lemma nameConsistentL_dictDel (cs : List (String × VFSNode)) (k : String)
    (h : nameConsistentL cs = true) : nameConsistentL (dictDel cs k) = true := by
  unfold dictDel
  induction cs with
  | nil => rfl
  | cons p ps ih =>
    obtain ⟨k', n'⟩ := p
    simp only [nameConsistentL, Bool.and_eq_true] at h
    obtain ⟨⟨hname, hcons⟩, hrest⟩ := h
    rw [List.filter]
    by_cases hk : (k' != k)
    · rw [show ((k', n').1 != k) = true from by simpa using hk]
      simp only [nameConsistentL, Bool.and_eq_true]
      exact ⟨⟨hname, hcons⟩, ih hrest⟩
    · rw [show ((k', n').1 != k) = false from by simpa using hk]
      exact ih hrest

lemma updateAt_preserves
    (f : List (String × VFSNode) → List (String × VFSNode))
    (hf : ∀ cs, nameConsistentL cs = true → nameConsistentL (f cs) = true) :
    ∀ (segs : List String) (node : VFSNode), nameConsistent node = true →
      nameConsistent (updateAt segs f node) = true := by
  intro segs
  induction segs with
  | nil =>
    intro node h
    cases node with
    | file nm d => exact h
    | dir nm cs =>
      have : nameConsistentL cs = true := by simpa [nameConsistent] using h
      simpa [updateAt, nameConsistent] using hf cs this
  | cons c rest ih =>
    intro node h
    cases node with
    | file nm d => exact h
    | dir nm cs =>
      have hcs : nameConsistentL cs = true := by simpa [nameConsistent] using h
      simp only [updateAt, nameConsistent]
      clear h
      induction cs with
      | nil => rfl
      | cons p ps ihl =>
        obtain ⟨k', n'⟩ := p
        simp only [nameConsistentL, Bool.and_eq_true] at hcs
        obtain ⟨⟨hname, hcons⟩, hrest⟩ := hcs
        simp only [List.map_cons]
        by_cases hk : (k' == c)
        · rw [if_pos (by simpa using hk)]
          simp only [nameConsistentL, Bool.and_eq_true]
          exact ⟨⟨by rw [updateAt_name]; exact hname, ih n' hcons⟩, ihl hrest⟩
        · rw [if_neg (by simpa using hk)]
          simp only [nameConsistentL, Bool.and_eq_true]
          exact ⟨⟨hname, hcons⟩, ihl hrest⟩

lemma process_elems_consistent (pyEncode : String → String → Option (List Nat)) :
    ∀ elems acc, ∀ r, process_elems pyEncode elems acc = .ok r →
      nameConsistentL acc = true → nameConsistentL r = true := by
  intro elems acc
  induction elems, acc using process_elems.induct pyEncode with
  | case1 acc =>
    intro r h hacc
    simp only [process_elems, Except.ok.injEq] at h
    rwa [← h]
  | case2 tg attrs tx cs rest acc hdir e hname hne childCs hchild ih1 ih2 =>
    intro r h hacc
    simp only [process_elems, hdir, hname, hne, hchild, if_true] at h
    refine ih2 r h (nameConsistentL_dictSet hacc rfl ?_)
    have := ih1 childCs hchild rfl
    simpa [nameConsistent] using this
  | case3 tg attrs tx cs rest acc hdir e hname hne msg hchild ih1 =>
    intro r h hacc
    simp only [process_elems, hdir, hname, hne, hchild, if_true] at h
    cases h
  | case4 tg attrs tx cs rest acc hdir e hname hne =>
    intro r h hacc
    have hne' : (e != "") = false := by simpa using hne
    simp only [process_elems, hdir, hname, hne', if_true, Bool.false_eq_true,
      if_false] at h
    cases h
  | case5 tg attrs tx cs rest acc hdir hname =>
    intro r h hacc
    simp only [process_elems, hdir, hname, if_true] at h
    cases h
  | case6 tg attrs tx cs rest acc hdir hfile e hname hne data hdec ih =>
    intro r h hacc
    have hdir' : (strToLower tg == "dir") = false := by simpa using hdir
    simp only [process_elems, hdir', hfile, hname, hne, hdec, Bool.false_eq_true,
      if_false, if_true] at h
    exact ih r h (nameConsistentL_dictSet hacc rfl rfl)
  | case7 tg attrs tx cs rest acc hdir hfile e hname hne msg hdec =>
    intro r h hacc
    have hdir' : (strToLower tg == "dir") = false := by simpa using hdir
    simp only [process_elems, hdir', hfile, hname, hne, hdec, Bool.false_eq_true,
      if_false, if_true] at h
    cases h
  | case8 tg attrs tx cs rest acc hdir hfile e hname hne =>
    intro r h hacc
    have hdir' : (strToLower tg == "dir") = false := by simpa using hdir
    have hne' : (e != "") = false := by simpa using hne
    simp only [process_elems, hdir', hfile, hname, hne', Bool.false_eq_true,
      if_false, if_true] at h
    cases h
  | case9 tg attrs tx cs rest acc hdir hfile hname =>
    intro r h hacc
    have hdir' : (strToLower tg == "dir") = false := by simpa using hdir
    simp only [process_elems, hdir', hfile, hname, Bool.false_eq_true,
      if_false, if_true] at h
    cases h
  | case10 tg attrs tx cs rest acc hdir hfile ih =>
    intro r h hacc
    have hdir' : (strToLower tg == "dir") = false := by simpa using hdir
    have hfile' : (strToLower tg == "file") = false := by simpa using hfile
    simp only [process_elems, hdir', hfile', Bool.false_eq_true, if_false] at h
    exact ih r h hacc

lemma load_consistent (pyEncode : String → String → Option (List Nat))
    (rootElem : XmlElem) (root : VFSNode)
    (h : load_vfs_from_elem pyEncode rootElem = .ok root) :
    nameConsistent root = true := by
  unfold load_vfs_from_elem at h
  by_cases htag : (strToLower rootElem.tag != "vfs") = true
  · rw [if_pos htag] at h
    cases h
  · rw [if_neg htag] at h
    cases htop : rootElem.children.filter
        (fun c => strToLower c.tag == "dir" && c.attrGet "name" == some "/") with
    | nil =>
      rw [htop] at h
      cases hp : process_elems pyEncode rootElem.children [] with
      | ok cs =>
        rw [hp] at h
        obtain rfl : VFSNode.dir "/" cs = root := by
          simpa [Except.map] using h
        simpa [nameConsistent] using
          process_elems_consistent pyEncode rootElem.children [] cs hp rfl
      | error msg =>
        rw [hp] at h
        simp [Except.map] at h
    | cons t ts =>
      rw [htop] at h
      dsimp only at h
      cases hp : process_elems pyEncode t.children [] with
      | ok cs =>
        rw [hp] at h
        obtain rfl : VFSNode.dir "/" cs = root := by
          simpa [Except.map] using h
        simpa [nameConsistent] using
          process_elems_consistent pyEncode t.children [] cs hp rfl
      | error msg =>
        rw [hp] at h
        simp [Except.map] at h

lemma cmd_rmdir_shape (s : ShellState) (args : List String) :
    (cmd_rmdir s args).1 = s
    ∨ ∃ root psegs name, s.vfs_root = some root
        ∧ (cmd_rmdir s args).1
          = ⟨some (updateAt psegs (fun l => dictDel l name) root), s.cwd⟩ := by
  unfold cmd_rmdir
  repeat' split
  all_goals first
    | exact Or.inl rfl
    | exact Or.inr ⟨_, _, _, by assumption, rfl⟩

lemma cmd_cp_shape (s : ShellState) (args : List String) :
    (cmd_cp s args).1 = s
    ∨ ∃ root psegs name data, s.vfs_root = some root
        ∧ (cmd_cp s args).1
          = ⟨some (updateAt psegs
              (fun l => dictSet l name (VFSNode.file name data)) root), s.cwd⟩ := by
  unfold cmd_cp
  dsimp only
  repeat' split
  all_goals first
    | exact Or.inl rfl
    | exact Or.inr ⟨_, _, _, _, by assumption, rfl⟩

/-- The loaded tree of a shell state, when present, is name-consistent. -/
def stateConsistent (s : ShellState) : Prop :=
  ∀ r, s.vfs_root = some r → nameConsistent r = true

lemma stateConsistent_rmdir (s : ShellState) (args : List String)
    (h : stateConsistent s) : stateConsistent (cmd_rmdir s args).1 := by
  rcases cmd_rmdir_shape s args with heq | ⟨root, psegs, name, hroot, heq⟩
  · rw [heq]; exact h
  · rw [heq]
    intro r hr
    obtain rfl : updateAt psegs (fun l => dictDel l name) root = r := by
      simpa using hr
    exact updateAt_preserves _ (fun cs hcs => nameConsistentL_dictDel cs name hcs)
      psegs root (h root hroot)

lemma stateConsistent_cp (s : ShellState) (args : List String)
    (h : stateConsistent s) : stateConsistent (cmd_cp s args).1 := by
  rcases cmd_cp_shape s args with heq | ⟨root, psegs, name, data, hroot, heq⟩
  · rw [heq]; exact h
  · rw [heq]
    intro r hr
    obtain rfl : updateAt psegs
        (fun l => dictSet l name (VFSNode.file name data)) root = r := by
      simpa using hr
    exact updateAt_preserves _
      (fun cs hcs =>
        @nameConsistentL_dictSet cs name (VFSNode.file name data) hcs rfl rfl)
      psegs root (h root hroot)

/-- Shell states reachable by loading a serialized tree and then running any
sequence of `cp` and `rmdir` commands. -/
inductive ReachableVFS : ShellState → Prop
  | loaded (pyEncode : String → String → Option (List Nat)) (rootElem : XmlElem)
      (root : VFSNode) (cwd : List String) :
      load_vfs_from_elem pyEncode rootElem = .ok root →
      ReachableVFS ⟨some root, cwd⟩
  | stepCp (s : ShellState) (args : List String) :
      ReachableVFS s → ReachableVFS (cmd_cp s args).1
  | stepRmdir (s : ShellState) (args : List String) :
      ReachableVFS s → ReachableVFS (cmd_rmdir s args).1

lemma reachable_consistent {s : ShellState} (hs : ReachableVFS s) :
    stateConsistent s := by
  induction hs with
  | loaded pyEncode rootElem root cwd hload =>
    intro r hr
    obtain rfl : root = r := by simpa using hr
    exact load_consistent pyEncode rootElem root hload
  | stepCp s args _ ih => exact stateConsistent_cp s args ih
  | stepRmdir s args _ ih => exact stateConsistent_rmdir s args ih

/-- C10: in every tree state reachable by loading and then any sequence of
`cp` and `rmdir` commands, every directory's children mapping is
name-consistent — each child is stored under exactly its own name. -/
theorem reachable_name_consistent (s : ShellState) (hs : ReachableVFS s)
    (r : VFSNode) (hr : s.vfs_root = some r) (nm : String)
    (cs : List (String × VFSNode)) (hd : Descendant (VFSNode.dir nm cs) r) :
    ∀ k n, (k, n) ∈ cs → VFSNode.name n = k := by
  intro k n hkn
  have hc : nameConsistent (VFSNode.dir nm cs) = true :=
    descendant_consistent hd (reachable_consistent hs r hr)
  have hl : nameConsistentL cs = true := by simpa [nameConsistent] using hc
  exact (nameConsistentL_mem cs k n hl hkn).1

/-- Example serialized description: a `vfs` root holding an empty directory
`d` and an empty file `s`. -/
def exElemW : XmlElem :=
  XmlElem.mk "vfs" [] none
    [XmlElem.mk "dir" [("name", "d")] none [],
     XmlElem.mk "file" [("name", "s")] none []]

/-- The tree `exElemW` loads to. -/
def exRootW : VFSNode :=
  VFSNode.dir "/" [("d", VFSNode.dir "d" []), ("s", VFSNode.file "s" [])]

/-- Concrete instantiation of the hypotheses of C10's theorem: after loading
`exElemW` and copying `s` into `d`, the child stored under key `s` in the
directory `d` carries exactly the name `s`. -/
theorem reachable_name_consistent_witness :
    VFSNode.name (VFSNode.file "s" []) = "s" := by
  have h1 : process_elems pyEnc0
      [XmlElem.mk "dir" [("name", "d")] none [],
       XmlElem.mk "file" [("name", "s")] none []] []
      = .ok [("d", VFSNode.dir "d" []), ("s", VFSNode.file "s" [])] := by
    simp +decide [process_elems, attrFind, dictSet, dictHas, decodeFileContent,
      utf8Encode]
  have h2 : List.filter
      (fun (c : XmlElem) =>
        strToLower c.tag == "dir" && c.attrGet "name" == some "/")
      [XmlElem.mk "dir" [("name", "d")] none [],
       XmlElem.mk "file" [("name", "s")] none []] = [] := by
    simp +decide [XmlElem.tag, XmlElem.attrGet, attrFind]
  have h3 : (strToLower (XmlElem.mk "vfs" [] none
      [XmlElem.mk "dir" [("name", "d")] none [],
       XmlElem.mk "file" [("name", "s")] none []]).tag != "vfs") = false := by
    decide
  have hload : load_vfs_from_elem pyEnc0 exElemW = .ok exRootW := by
    simp only [load_vfs_from_elem, exElemW, XmlElem.children, h3,
      Bool.false_eq_true, if_false, h2, h1]
    rfl
  have h1 : ReachableVFS (⟨some exRootW, []⟩ : ShellState) :=
    ReachableVFS.loaded pyEnc0 exElemW exRootW [] hload
  have h2 : ReachableVFS (cmd_cp ⟨some exRootW, []⟩ ["s", "d"]).1 :=
    ReachableVFS.stepCp _ _ h1
  exact reachable_name_consistent (cmd_cp ⟨some exRootW, []⟩ ["s", "d"]).1 h2
    (VFSNode.dir "/" [("d", VFSNode.dir "d" [("s", VFSNode.file "s" [])]),
      ("s", VFSNode.file "s" [])]) rfl
    "d" [("s", VFSNode.file "s" [])]
    (Descendant.step _ _ "d" "/" _ (List.Mem.head _) (Descendant.refl _))
    "s" (VFSNode.file "s" []) (List.Mem.head _)

end MireaVFS
